import Mathlib

/-!
# Verification of the neuroglancer-chat viewer-state engine

Shallow embedding of the Python modules
`src/neurogabber/backend/tools/neuroglancer_state.py`,
`src/neurogabber/backend/main.py` (URL masking, tool dispatch, the `/agent/chat`
orchestrator loop) and
`src/neuroglancer_chat/backend/tools/pointer_expansion.py`.

Python strings are modelled as `List Char` (Unicode scalar values), JSON
documents as the `JValue` family below.  Python `dict`s are modelled as
insertion-ordered association lists with unique keys, which is exactly the
observable behaviour of CPython 3.7+ dicts under the operations the source
uses (`get`, item assignment, iteration).  Python floats are carried as their
`repr` literals (the exact token `json.dumps` emits); no claim below depends
on float arithmetic except a division by two, which is modelled as exact
decimal halving — IEEE-754 rounding is outside the scope of this model.
-/

namespace NG

/-- Python strings: a list of Unicode scalar values. -/
abbrev Str := List Char

/-- Convert a Lean string literal to the model representation. -/
def lit (s : String) : Str := s.data

/-- Substring test, `needle in haystack` in Python. -/
def strContains (hay needle : Str) : Bool :=
  match hay with
  | [] => needle.isEmpty
  | _ :: t => needle.isPrefixOf hay || strContains t needle

/-- `s.startswith (p)` in Python. -/
def startsWith (p s : Str) : Bool := p.isPrefixOf s

/-- ASCII whitespace recognised by `re`'s `\s` and by `str.split`/`str.strip`
on the ASCII range (the texts handled by the claims are ASCII). -/
def isSpace (c : Char) : Bool :=
  c == ' ' || c == '\t' || c == '\n' || c == '\r' || c == '\x0b' || c == '\x0c'

/-- `str.strip()` (ASCII whitespace). -/
def pyStrip (s : Str) : Str :=
  (s.dropWhile (fun c => isSpace c)).reverse.dropWhile (fun c => isSpace c) |>.reverse

/-- Worker for `pyReplace`; the fuel argument makes the recursion structural
(`pyReplace` supplies `s.length`, which is always sufficient because every
step consumes at least one character). -/
def pyReplaceGo : Nat → Str → Str → Str → Str
  | _, [], _, _ => []
  | 0, s, _, _ => s
  | fuel + 1, c :: t, old, new =>
    if old ≠ [] ∧ old.isPrefixOf (c :: t) then
      new ++ pyReplaceGo fuel ((c :: t).drop old.length) old new
    else
      c :: pyReplaceGo fuel t old new

/-- Python `str.replace(old, new)` for nonempty `old`: leftmost,
non-overlapping, never rescanning the replacement text. -/
def pyReplace (s old new : Str) : Str := pyReplaceGo s.length s old new

/-- `s.split('#', 1)` keeping only the part after the first `'#'`
(the source always indexes `[1]` after testing `'#' in s`). -/
def splitAfterFirst (sep : Char) (s : Str) : Str :=
  match s with
  | [] => []
  | c :: t => if c == sep then t else splitAfterFirst sep t

/-- Worker for `pySplitWs` (fuel = remaining length, always sufficient). -/
def pySplitWsGo : Nat → Str → List Str
  | _, [] => [[]]
  | 0, s => [s]
  | fuel + 1, c :: t =>
    if isSpace c then
      [] :: pySplitWsGo fuel (t.dropWhile (fun c => isSpace c))
    else
      match pySplitWsGo fuel t with
      | [] => [[c]]
      | tok :: toks => (c :: tok) :: toks

/-- `re.split(r"\s+", text)`: split on maximal whitespace runs.  A leading
(resp. trailing) run produces an empty first (resp. last) token, matching
`re.split` semantics for a pattern that can match at the borders. -/
def pySplitWs (s : Str) : List Str := pySplitWsGo s.length s

/-! ## JSON documents

Mutual inductive so that structural induction over objects/arrays is
available directly.  `JObj` is an insertion-ordered association list — the
model of a CPython dict (claims only quantify over states whose objects have
unique keys, the invariant every dict satisfies by construction). -/

mutual
inductive JValue where
  | null : JValue
  | bool (b : Bool) : JValue
  /-- A JSON number, carried as the exact literal `json.dumps` emits
  (e.g. `1e-09`, `0`, `1.0`).  Python guarantees `loads (dumps x) == x`
  via `repr` round-tripping, which this representation makes literal. -/
  | num (litc : Str) : JValue
  | str (s : Str) : JValue
  | arr (xs : JArr) : JValue
  | obj (kvs : JObj) : JValue
  deriving DecidableEq

inductive JArr where
  | nil : JArr
  | cons (v : JValue) (rest : JArr) : JArr
  deriving DecidableEq

inductive JObj where
  | nil : JObj
  | cons (k : Str) (v : JValue) (rest : JObj) : JObj
  deriving DecidableEq
end

namespace JArr

def toList : JArr → List JValue
  | .nil => []
  | .cons v r => v :: toList r

def ofList : List JValue → JArr
  | [] => .nil
  | v :: r => .cons v (ofList r)

def length (a : JArr) : Nat := a.toList.length

end JArr

namespace JObj

def toList : JObj → List (Str × JValue)
  | .nil => []
  | .cons k v r => (k, v) :: toList r

def keys : JObj → List Str
  | .nil => []
  | .cons k _ r => k :: keys r

/-- `d.get(k)` / `d.get(k, None)`. -/
def get? : JObj → Str → Option JValue
  | .nil, _ => none
  | .cons k v r, key => if k = key then some v else get? r key

/-- `d[k] = v`: overwrite in place if the key exists (position kept),
append otherwise — CPython dict assignment. -/
def set : JObj → Str → JValue → JObj
  | .nil, key, val => .cons key val .nil
  | .cons k v r, key, val =>
    if k = key then .cons k val r else .cons k v (set r key val)

/-- Key membership, `k in d`. -/
def hasKey (d : JObj) (key : Str) : Bool := (d.get? key).isSome

end JObj

/-- `d.get(k, default)`. -/
def jget (d : JObj) (k : Str) (dflt : JValue) : JValue :=
  (d.get? k).getD dflt

/-! ## `json.dumps(state, separators=(",", ":"))`

Default flags: `ensure_ascii=True` (everything outside `0x20..0x7e` is
`\uXXXX`-escaped, astral characters as surrogate pairs), no key sorting,
compact separators. -/

def jisDigit (c : Char) : Bool := '0' ≤ c && c ≤ '9'

/-- Characters a JSON number token is made of (used by the maximal-munch
number scanner; `json.dumps` only ever emits literals over this alphabet). -/
def isNumChar (c : Char) : Bool :=
  jisDigit c || c == '-' || c == '+' || c == '.' || c == 'e' || c == 'E'

/-- Lower-case hex digit, as used by `json`'s `\uXXXX` escapes. -/
def hexL (n : Nat) : Char :=
  if n < 10 then Char.ofNat ('0'.toNat + n) else Char.ofNat ('a'.toNat + n - 10)

/-- Four lower-case hex digits of `n < 0x10000`. -/
def hex4L (n : Nat) : Str :=
  [hexL (n / 4096 % 16), hexL (n / 256 % 16), hexL (n / 16 % 16), hexL (n % 16)]

/-- `\uXXXX` escape of a scalar value, surrogate pair above `0xFFFF`. -/
def uEsc (n : Nat) : Str :=
  if n < 0x10000 then '\\' :: 'u' :: hex4L n
  else
    let m := n - 0x10000
    ('\\' :: 'u' :: hex4L (0xD800 + m / 0x400)) ++ ('\\' :: 'u' :: hex4L (0xDC00 + m % 0x400))

/-- Escape of one character inside a dumped string (`ensure_ascii` table). -/
def jescChar (c : Char) : Str :=
  if c = '"' then ['\\', '"']
  else if c = '\\' then ['\\', '\\']
  else if c = '\n' then ['\\', 'n']
  else if c = '\t' then ['\\', 't']
  else if c = '\r' then ['\\', 'r']
  else if c = '\x08' then ['\\', 'b']
  else if c = '\x0c' then ['\\', 'f']
  else if c.toNat < 0x20 || 0x7e < c.toNat then uEsc c.toNat
  else [c]

def jescStr : Str → Str
  | [] => []
  | c :: t => jescChar c ++ jescStr t

/-- A dumped string token, quotes included. -/
def jdumpStr (s : Str) : Str := '"' :: (jescStr s ++ ['"'])

mutual
/-- `json.dumps(·, separators=(",", ":"))`. -/
def jdump : JValue → Str
  | .null => lit "null"
  | .bool true => lit "true"
  | .bool false => lit "false"
  | .num l => l
  | .str s => jdumpStr s
  | .arr a => '[' :: (jdumpArr a ++ [']'])
  | .obj o => '{' :: (jdumpObj o ++ ['}'])

def jdumpArr : JArr → Str
  | .nil => []
  | .cons v .nil => jdump v
  | .cons v (.cons w r) => jdump v ++ ',' :: jdumpArr (.cons w r)

def jdumpObj : JObj → Str
  | .nil => []
  | .cons k v .nil => jdumpStr k ++ ':' :: jdump v
  | .cons k v (.cons k' w r) => jdumpStr k ++ ':' :: jdump v ++ ',' :: jdumpObj (.cons k' w r)
end

/-! ## `json.loads`

Recursive-descent parser over `List Char` with a fuel counter (structural
totality).  Faithful to the CPython decoder on everything the claims
exercise: JSON whitespace, the escape table, `\uXXXX` with surrogate-pair
recombination, strict rejection of raw control characters in strings, and
maximal-munch number scanning.  Two deliberate model edges: number tokens
are kept as literals without re-validating their grammar (the serializer
only emits well-formed ones), and a *lone* surrogate escape is a parse
error because `Char` cannot carry it (CPython would keep it; no claim
depends on lone surrogates). -/

def jsonWs (c : Char) : Bool := c == ' ' || c == '\t' || c == '\n' || c == '\r'

def jskipWs (s : Str) : Str := s.dropWhile jsonWs

def hexVal (c : Char) : Option Nat :=
  match c.toNat with
  | n =>
    if 48 ≤ n ∧ n ≤ 57 then some (n - 48)
    else if 97 ≤ n ∧ n ≤ 102 then some (n - 87)
    else if 65 ≤ n ∧ n ≤ 70 then some (n - 55)
    else none

def hex4V (a b c d : Char) : Option Nat := do
  let x ← hexVal a; let y ← hexVal b; let z ← hexVal c; let w ← hexVal d
  return ((x * 16 + y) * 16 + z) * 16 + w

/-- The two-character escapes of the JSON grammar. -/
def unescChar (e : Char) : Option Char :=
  if e = '"' then some '"'
  else if e = '\\' then some '\\'
  else if e = '/' then some '/'
  else if e = 'b' then some '\x08'
  else if e = 'f' then some '\x0c'
  else if e = 'n' then some '\n'
  else if e = 'r' then some '\r'
  else if e = 't' then some '\t'
  else none

/-- Lexical classification of the next string-body token: a decoded
character, the closing quote, or a lexical error (bad escape, raw control
character, lone surrogate, end of input). -/
inductive StrTok where
  | chr (c : Char) : StrTok
  | endq : StrTok
  | bad : StrTok
  deriving DecidableEq

/-- Scan one token of a string body (non-recursive). -/
def nextStrTok : Str → StrTok × Str
  | [] => (.bad, [])
  | c :: rest =>
    if c = '"' then (.endq, rest)
    else if c = '\\' then
      match rest with
      | [] => (.bad, rest)
      | e :: rest1 =>
        if e = 'u' then
          match rest1 with
          | a :: b :: cc :: d :: rest2 =>
            match hex4V a b cc d with
            | none => (.bad, rest2)
            | some n =>
              if 0xD800 ≤ n ∧ n ≤ 0xDBFF then
                -- high surrogate: must be followed by a low surrogate escape
                match rest2 with
                | b1 :: b2 :: a2 :: b3 :: c2 :: d2 :: rest3 =>
                  if b1 = '\\' ∧ b2 = 'u' then
                    match hex4V a2 b3 c2 d2 with
                    | none => (.bad, rest3)
                    | some m =>
                      if 0xDC00 ≤ m ∧ m ≤ 0xDFFF then
                        (.chr (Char.ofNat (0x10000 + (n - 0xD800) * 0x400 + (m - 0xDC00))),
                          rest3)
                      else (.bad, rest3)
                  else (.bad, rest2)
                | _ => (.bad, rest2)
              else if 0xDC00 ≤ n ∧ n ≤ 0xDFFF then (.bad, rest2)
              else (.chr (Char.ofNat n), rest2)
          | _ => (.bad, rest1)
        else
          match unescChar e with
          | some ch => (.chr ch, rest1)
          | none => (.bad, rest1)
    else if c.toNat < 0x20 then (.bad, rest)
    else (.chr c, rest)

/-- String-body parser loop (fuel = remaining length is always sufficient,
every token consumes at least one character). -/
def parseStrBodyF : Nat → Str → Option (Str × Str)
  | 0, _ => none
  | fuel + 1, s =>
    match nextStrTok s with
    | (.endq, r) => some ([], r)
    | (.chr ch, r) => (parseStrBodyF fuel r).map (fun p => (ch :: p.1, p.2))
    | (.bad, _) => none

/-- Parse a string body (after the opening quote) up to the closing quote. -/
def parseStrBody (s : Str) : Option (Str × Str) := parseStrBodyF s.length s

/-- Expect an exact literal continuation (the scanner's `null`/`true`/`false`
keyword check), returning the remainder. -/
def dropPre : Str → Str → Option Str
  | [], s => some s
  | _ :: _, [] => none
  | c :: t, x :: xs => if x = c then dropPre t xs else none

mutual
def parseVal : Nat → Str → Option (JValue × Str)
  | 0, _ => none
  | fuel + 1, s =>
    match jskipWs s with
    | [] => none
    | c :: r =>
      if c = 'n' then (dropPre (lit "ull") r).map (fun r1 => (.null, r1))
      else if c = 't' then (dropPre (lit "rue") r).map (fun r1 => (.bool true, r1))
      else if c = 'f' then (dropPre (lit "alse") r).map (fun r1 => (.bool false, r1))
      else if c = '"' then (parseStrBody r).map (fun p => (.str p.1, p.2))
      else if c = '[' then
        match jskipWs r with
        | [] => none
        | c1 :: r1 =>
          if c1 = ']' then some (.arr .nil, r1)
          else (parseArrItems fuel (c1 :: r1)).map (fun p => (.arr p.1, p.2))
      else if c = '{' then
        match jskipWs r with
        | [] => none
        | c1 :: r1 =>
          if c1 = '}' then some (.obj .nil, r1)
          else (parseObjItems fuel (c1 :: r1)).map (fun p => (.obj p.1, p.2))
      else if jisDigit c || c == '-' then
        some (.num ((c :: r).takeWhile isNumChar), (c :: r).dropWhile isNumChar)
      else none

def parseArrItems : Nat → Str → Option (JArr × Str)
  | 0, _ => none
  | fuel + 1, s =>
    match parseVal fuel s with
    | none => none
    | some (v, r) =>
      match jskipWs r with
      | [] => none
      | c :: r1 =>
        if c = ',' then (parseArrItems fuel r1).map (fun p => (.cons v p.1, p.2))
        else if c = ']' then some (.cons v .nil, r1)
        else none

def parseObjItems : Nat → Str → Option (JObj × Str)
  | 0, _ => none
  | fuel + 1, s =>
    match jskipWs s with
    | [] => none
    | c :: r =>
      if c = '"' then
        match parseStrBody r with
        | none => none
        | some (k, r1) =>
          match jskipWs r1 with
          | [] => none
          | c2 :: r2 =>
            if c2 = ':' then
              match parseVal fuel r2 with
              | none => none
              | some (v, r3) =>
                match jskipWs r3 with
                | [] => none
                | c3 :: r4 =>
                  if c3 = ',' then (parseObjItems fuel r4).map (fun p => (.cons k v p.1, p.2))
                  else if c3 = '}' then some (.cons k v .nil, r4)
                  else none
            else none
      else none
end

/-- `json.loads`: leading whitespace skipped by the decoder, trailing
whitespace allowed, anything further is an error. -/
def json_loads (s : Str) : Option JValue :=
  match parseVal (s.length + 1) s with
  | some (v, rest) => if jskipWs rest = [] then some v else none
  | none => none

/-! ## Validity: documents that are images of real Python values

A `JValue` models a JSON-serializable Python value when every number literal
is a well-formed token and every object has unique keys (dicts cannot hold
duplicates).  This is the precondition "valid ViewerState" of the spec's
round-trip claims. -/

/-- A number literal as `json.dumps` can emit it: nonempty, starting with a
digit or `'-'`, over the number-token alphabet. -/
def numLitOkB : Str → Bool
  | [] => false
  | c :: t => (jisDigit c || c == '-') && (c :: t).all (fun x => isNumChar x)

def keyAbsent (k : Str) : JObj → Bool
  | .nil => true
  | .cons k' _ r => if k' = k then false else keyAbsent k r

mutual
def jvalid : JValue → Bool
  | .null => true
  | .bool _ => true
  | .num l => numLitOkB l
  | .str _ => true
  | .arr a => jvalidArr a
  | .obj o => jvalidObj o

def jvalidArr : JArr → Bool
  | .nil => true
  | .cons v r => jvalid v && jvalidArr r

def jvalidObj : JObj → Bool
  | .nil => true
  | .cons k v r => jvalid v && keyAbsent k r && jvalidObj r
end

/-! Fuel bounds for the parser. -/

mutual
def jfuel : JValue → Nat
  | .null => 1
  | .bool _ => 1
  | .num _ => 1
  | .str _ => 1
  | .arr a => jfuelArr a + 1
  | .obj o => jfuelObj o + 1

def jfuelArr : JArr → Nat
  | .nil => 1
  | .cons v r => Nat.max (jfuel v) (jfuelArr r) + 1

def jfuelObj : JObj → Nat
  | .nil => 1
  | .cons _ v r => Nat.max (jfuel v) (jfuelObj r) + 1
end

/-! ## Round-trip: `json_loads (jdump v) = some v` -/

/-- The continuation after a dumped value must not begin with a number
character (true at every call site: `,`, `]`, `}` or end of input). -/
def restStop : Str → Bool
  | [] => true
  | c :: _ => !isNumChar c

lemma jisDigit_ne {c : Char} (h : jisDigit c = true) {d : Char}
    (hd : jisDigit d = false) : c ≠ d := by
  intro e; subst e; rw [h] at hd; exact Bool.noConfusion hd

/-- First characters a dumped value can start with. -/
def valueStart (c : Char) : Bool :=
  c == 'n' || c == 't' || c == 'f' || c == '"' || c == '[' || c == '{' ||
    jisDigit c || c == '-'

lemma valueStart_not_ws {c : Char} (h : valueStart c = true) : jsonWs c = false := by
  cases hb : jsonWs c
  · rfl
  · exfalso
    simp only [jsonWs, Bool.or_eq_true, beq_iff_eq] at hb
    casesm* _ ∨ _ <;> subst_vars <;> exact absurd h (by decide)

lemma valueStart_ne {c : Char} (h : valueStart c = true) {d : Char}
    (hd : valueStart d = false) : c ≠ d := by
  intro e; subst e; rw [h] at hd; exact Bool.noConfusion hd

lemma jdump_head : ∀ (v : JValue), jvalid v = true →
    ∃ c t, jdump v = c :: t ∧ valueStart c = true
  | .null, _ => ⟨'n', _, rfl, by decide⟩
  | .bool true, _ => ⟨'t', _, rfl, by decide⟩
  | .bool false, _ => ⟨'f', _, rfl, by decide⟩
  | .num l, h => by
    match l, h with
    | c :: t, h =>
      refine ⟨c, t, rfl, ?_⟩
      simp only [jvalid, numLitOkB, Bool.and_eq_true, Bool.or_eq_true] at h
      simp only [valueStart, Bool.or_eq_true]
      tauto
  | .str s, _ => ⟨'"', _, rfl, by decide⟩
  | .arr a, _ => ⟨'[', _, rfl, by decide⟩
  | .obj o, _ => ⟨'{', _, rfl, by decide⟩

/-- Skipping whitespace in front of a dumped value is the identity. -/
lemma jskipWs_jdump (v : JValue) (hv : jvalid v = true) (rest : Str) :
    jskipWs (jdump v ++ rest) = jdump v ++ rest := by
  obtain ⟨c, t, he, hs⟩ := jdump_head v hv
  rw [he]
  simp [jskipWs, List.dropWhile_cons, valueStart_not_ws hs]

lemma takeWhile_append_all {p : Char → Bool} :
    ∀ (l rest : Str), (∀ c ∈ l, p c = true) →
      (match rest with | [] => True | c :: _ => p c = false) →
      (l ++ rest).takeWhile p = l ∧ (l ++ rest).dropWhile p = rest := by
  intro l rest hl hr
  induction l with
  | nil =>
    cases rest with
    | nil => simp
    | cons c t => simp_all [List.takeWhile_cons, List.dropWhile_cons]
  | cons c l ih =>
    have hc : p c = true := hl c (List.mem_cons_self _ _)
    have := ih (fun x hx => hl x (List.mem_cons_of_mem _ hx))
    simp_all [List.takeWhile_cons, List.dropWhile_cons]

lemma hexVal_hexL {k : Nat} (h : k < 16) : hexVal (hexL k) = some k := by
  interval_cases k <;> decide

lemma hex4V_hex4L (n : Nat) (h : n < 0x10000) :
    hex4V (hexL (n / 4096 % 16)) (hexL (n / 256 % 16)) (hexL (n / 16 % 16))
      (hexL (n % 16)) = some n := by
  have h1 : n / 4096 % 16 < 16 := Nat.mod_lt _ (by norm_num)
  have h2 : n / 256 % 16 < 16 := Nat.mod_lt _ (by norm_num)
  have h3 : n / 16 % 16 < 16 := Nat.mod_lt _ (by norm_num)
  have h4 : n % 16 < 16 := Nat.mod_lt _ (by norm_num)
  have e1 : n / 256 / 16 = n / 4096 := by
    rw [Nat.div_div_eq_div_mul]
  have e2 : n / 16 / 16 = n / 256 := by
    rw [Nat.div_div_eq_div_mul]
  simp only [hex4V, hexVal_hexL h1, hexVal_hexL h2, hexVal_hexL h3, hexVal_hexL h4,
    Option.pure_def, Option.bind_eq_bind, Option.some_bind, Option.some.injEq]
  rw [Nat.mod_eq_of_lt (show n / 4096 < 16 by omega)]
  omega

/-- Scanning a single `\\uXXXX` escape outside the surrogate ranges. -/
lemma nextStrTok_u1 (a b cc d : Char) (u : Str) (n : Nat)
    (hx : hex4V a b cc d = some n)
    (hh : ¬(0xD800 ≤ n ∧ n ≤ 0xDBFF)) (hl : ¬(0xDC00 ≤ n ∧ n ≤ 0xDFFF)) :
    nextStrTok ('\\' :: 'u' :: a :: b :: cc :: d :: u) = (.chr (Char.ofNat n), u) := by
  simp only [nextStrTok, reduceIte]
  rw [hx]
  simp only []
  rw [if_neg hh, if_neg hl, if_neg (by decide : ¬('\\' : Char) = '"')]

/-- Scanning a surrogate-pair escape. -/
lemma nextStrTok_u2 (a b cc d a2 b3 c2 d2 : Char) (u : Str) (n m : Nat)
    (hx : hex4V a b cc d = some n) (hh : 0xD800 ≤ n ∧ n ≤ 0xDBFF)
    (hx2 : hex4V a2 b3 c2 d2 = some m) (hl : 0xDC00 ≤ m ∧ m ≤ 0xDFFF) :
    nextStrTok ('\\' :: 'u' :: a :: b :: cc :: d :: '\\' :: 'u' :: a2 :: b3 :: c2 :: d2 :: u)
      = (.chr (Char.ofNat (0x10000 + (n - 0xD800) * 0x400 + (m - 0xDC00))), u) := by
  simp only [nextStrTok, reduceIte]
  rw [hx]
  simp only []
  rw [if_pos hh]
  rw [if_pos (⟨trivial, trivial⟩ : True ∧ True)]
  rw [hx2]
  simp only []
  rw [if_pos hl, if_neg (by decide : ¬('\\' : Char) = '"')]

/-- One escaped character scans back to itself (with the rest untouched). -/
lemma nextStrTok_jescChar (c : Char) (u : Str) :
    nextStrTok (jescChar c ++ u) = (.chr c, u) := by
  by_cases h1 : c = '"'
  · subst h1; rfl
  by_cases h2 : c = '\\'
  · subst h2; rfl
  by_cases h3 : c = '\n'
  · subst h3; rfl
  by_cases h4 : c = '\t'
  · subst h4; rfl
  by_cases h5 : c = '\r'
  · subst h5; rfl
  by_cases h6 : c = '\x08'
  · subst h6; rfl
  by_cases h7 : c = '\x0c'
  · subst h7; rfl
  by_cases h8 : c.toNat < 0x20 || 0x7e < c.toNat
  · -- `\uXXXX` escape (single or surrogate pair)
    have hval : c.toNat < 0xD800 ∨ (0xE000 ≤ c.toNat ∧ c.toNat < 0x110000) := c.valid
    rw [jescChar, if_neg h1, if_neg h2, if_neg h3, if_neg h4, if_neg h5, if_neg h6,
      if_neg h7, if_pos h8]
    by_cases hbmp : c.toNat < 0x10000
    · rw [uEsc, if_pos hbmp]
      simp only [hex4L, List.cons_append, List.nil_append]
      rw [nextStrTok_u1 _ _ _ _ _ c.toNat (hex4V_hex4L c.toNat hbmp)
        (by omega) (by omega), Char.ofNat_toNat]
    · have hlt : c.toNat < 0x110000 := by omega
      have hdiv : (c.toNat - 0x10000) / 0x400 < 0x400 := by omega
      have hmod : (c.toNat - 0x10000) % 0x400 < 0x400 := Nat.mod_lt _ (by norm_num)
      rw [uEsc, if_neg (by omega : ¬c.toNat < 0x10000)]
      simp only [hex4L, List.cons_append, List.nil_append, List.append_assoc]
      rw [nextStrTok_u2 _ _ _ _ _ _ _ _ _ _ _
        (hex4V_hex4L _ (by omega)) (by omega) (hex4V_hex4L _ (by omega)) (by omega)]
      have harith : 0x10000 +
          (0xD800 + (c.toNat - 0x10000) / 0x400 - 0xD800) * 0x400 +
          (0xDC00 + (c.toNat - 0x10000) % 0x400 - 0xDC00) = c.toNat := by omega
      rw [harith, Char.ofNat_toNat]
  · -- printable ASCII, emitted literally
    rw [jescChar, if_neg h1, if_neg h2, if_neg h3, if_neg h4, if_neg h5, if_neg h6,
      if_neg h7, if_neg h8]
    simp only [List.cons_append, List.nil_append]
    simp only [nextStrTok, reduceIte]
    rw [if_neg h1, if_neg h2,
      if_neg (by simp only [Bool.or_eq_true, decide_eq_true_eq, not_or] at h8; omega)]

lemma parseStrBodyF_jescStr (s : Str) : ∀ (fuel : Nat), s.length + 1 ≤ fuel → ∀ (u : Str),
    parseStrBodyF fuel (jescStr s ++ '"' :: u) = some (s, u) := by
  induction s with
  | nil =>
    intro fuel hf u
    obtain ⟨f, rfl⟩ : ∃ f, fuel = f + 1 := ⟨fuel - 1, by omega⟩
    rfl
  | cons c t ih =>
    intro fuel hf u
    obtain ⟨f, rfl⟩ : ∃ f, fuel = f + 1 := ⟨fuel - 1, by omega⟩
    rw [show jescStr (c :: t) = jescChar c ++ jescStr t from rfl, List.append_assoc]
    rw [show parseStrBodyF (f + 1) (jescChar c ++ (jescStr t ++ '"' :: u)) =
        (match nextStrTok (jescChar c ++ (jescStr t ++ '"' :: u)) with
         | (.endq, r) => some ([], r)
         | (.chr ch, r) => (parseStrBodyF f r).map (fun p => (ch :: p.1, p.2))
         | (.bad, _) => none) from rfl]
    rw [nextStrTok_jescChar]
    simp only []
    rw [ih f (by simp only [List.length_cons] at hf; omega) u]
    rfl

lemma jescChar_len_pos (c : Char) : 1 ≤ (jescChar c).length := by
  rw [jescChar]
  split_ifs
  all_goals first
    | simp
    | (rw [uEsc]; split_ifs <;> simp [hex4L])

lemma jescStr_len_ge (s : Str) : s.length ≤ (jescStr s).length := by
  induction s with
  | nil => simp [jescStr]
  | cons c t ih =>
    rw [show jescStr (c :: t) = jescChar c ++ jescStr t from rfl]
    simp only [List.length_append, List.length_cons]
    have := jescChar_len_pos c
    omega

/-- A dumped string body parses back exactly. -/
lemma parseStrBody_jescStr (s u : Str) :
    parseStrBody (jescStr s ++ '"' :: u) = some (s, u) := by
  rw [parseStrBody]
  apply parseStrBodyF_jescStr
  have := jescStr_len_ge s
  simp only [List.length_append, List.length_cons]
  omega

lemma jfuel_pos : ∀ (v : JValue), 1 ≤ jfuel v := by
  intro v; cases v <;> simp [jfuel]

lemma dropPre_self : ∀ (l rest : Str), dropPre l (l ++ rest) = some rest
  | [], rest => rfl
  | c :: t, rest => by
    simp only [List.cons_append, dropPre, if_pos rfl]
    exact dropPre_self t rest

lemma numStart_ne {c : Char} (h : (jisDigit c || c == '-') = true) :
    c ≠ 'n' ∧ c ≠ 't' ∧ c ≠ 'f' ∧ c ≠ '"' ∧ c ≠ '[' ∧ c ≠ '{' := by
  rw [Bool.or_eq_true] at h
  rcases h with hd | hd
  · exact ⟨jisDigit_ne hd (by decide), jisDigit_ne hd (by decide), jisDigit_ne hd (by decide),
      jisDigit_ne hd (by decide), jisDigit_ne hd (by decide), jisDigit_ne hd (by decide)⟩
  · have : c = '-' := by simpa using hd
    subst this
    refine ⟨by decide, by decide, by decide, by decide, by decide, by decide⟩

/-- A dumped nonempty array starts with a value-start character. -/
lemma jdumpArr_head (w : JValue) (r : JArr) (hw : jvalid w = true) :
    ∃ c t, jdumpArr (.cons w r) = c :: t ∧ valueStart c = true := by
  obtain ⟨c, t, he, hs⟩ := jdump_head w hw
  cases r with
  | nil => exact ⟨c, t, by rw [show jdumpArr (.cons w .nil) = jdump w from rfl, he], hs⟩
  | cons w2 r2 =>
    refine ⟨c, t ++ ',' :: jdumpArr (.cons w2 r2), ?_, hs⟩
    rw [show jdumpArr (.cons w (.cons w2 r2)) = jdump w ++ ',' :: jdumpArr (.cons w2 r2) from rfl,
      he]
    simp

/-- A dumped nonempty object starts with the key quote. -/
lemma jdumpObj_head (k : Str) (v : JValue) (r : JObj) :
    ∃ t, jdumpObj (.cons k v r) = '"' :: t := by
  cases r with
  | nil =>
    refine ⟨jescStr k ++ '"' :: ':' :: jdump v, ?_⟩
    rw [show jdumpObj (.cons k v .nil) = jdumpStr k ++ ':' :: jdump v from rfl, jdumpStr]
    simp
  | cons k2 w r2 =>
    refine ⟨jescStr k ++ '"' :: ':' :: (jdump v ++ ',' :: jdumpObj (.cons k2 w r2)), ?_⟩
    rw [show jdumpObj (.cons k v (.cons k2 w r2))
        = jdumpStr k ++ ':' :: jdump v ++ ',' :: jdumpObj (.cons k2 w r2) from rfl, jdumpStr]
    simp

/-- Round-trip of the parser against the serializer, all three forms at
once, by induction on fuel (every recursive parser call spends one unit). -/
theorem parse_jdump_all : ∀ (fuel : Nat),
    (∀ (v : JValue), jvalid v = true → jfuel v ≤ fuel →
      ∀ (rest : Str), restStop rest = true →
        parseVal fuel (jdump v ++ rest) = some (v, rest)) ∧
    (∀ (v : JValue) (r : JArr), jvalidArr (.cons v r) = true → jfuelArr (.cons v r) ≤ fuel →
      ∀ (rest : Str),
        parseArrItems fuel (jdumpArr (.cons v r) ++ ']' :: rest) = some (.cons v r, rest)) ∧
    (∀ (k : Str) (v : JValue) (r : JObj), jvalidObj (.cons k v r) = true →
      jfuelObj (.cons k v r) ≤ fuel →
      ∀ (rest : Str),
        parseObjItems fuel (jdumpObj (.cons k v r) ++ '}' :: rest) = some (.cons k v r, rest)) := by
  intro fuel
  induction fuel with
  | zero =>
    refine ⟨?_, ?_, ?_⟩
    · intro v hv hf
      exact absurd hf (by have := jfuel_pos v; omega)
    · intro v r _ hf
      exact absurd hf (by
        have he : jfuelArr (.cons v r) = Nat.max (jfuel v) (jfuelArr r) + 1 := rfl
        omega)
    · intro k v r _ hf
      exact absurd hf (by
        have he : jfuelObj (.cons k v r) = Nat.max (jfuel v) (jfuelObj r) + 1 := rfl
        omega)
  | succ f ih =>
    obtain ⟨ihV, ihA, ihO⟩ := ih
    refine ⟨?_, ?_, ?_⟩
    ·
      intro v hv hf rest hrest
      cases v with
      | null =>
        simp only [parseVal]
        rw [jskipWs_jdump _ hv]
        exact rfl
      | bool b =>
        cases b
        · simp only [parseVal]
          rw [jskipWs_jdump _ hv]
          exact rfl
        · simp only [parseVal]
          rw [jskipWs_jdump _ hv]
          exact rfl
      | num l =>
        cases l with
        | nil => exact absurd hv (by decide)
        | cons c t =>
          have hl : (jisDigit c || c == '-') = true ∧ ((c :: t).all fun x => isNumChar x) = true := by
            rw [← Bool.and_eq_true]
            simpa [jvalid, numLitOkB] using hv
          obtain ⟨n1, n2, n3, n4, n5, n6⟩ := numStart_ne hl.1
          simp only [parseVal]
          rw [jskipWs_jdump _ hv]
          rw [show jdump (.num (c :: t)) ++ rest = c :: (t ++ rest) from rfl]
          simp only []
          rw [if_neg n1, if_neg n2, if_neg n3, if_neg n4, if_neg n5, if_neg n6, if_pos hl.1]
          have hsplit := takeWhile_append_all (p := isNumChar) (c :: t) rest
            (fun x hx => by
              have := hl.2
              rw [List.all_eq_true] at this
              exact this x hx)
            (by
              cases rest with
              | nil => trivial
              | cons cr tr =>
                simp only [restStop, Bool.not_eq_true'] at hrest
                exact hrest)
          rw [show c :: (t ++ rest) = (c :: t) ++ rest from rfl, hsplit.1, hsplit.2]
      | str s =>
        simp only [parseVal]
        rw [jskipWs_jdump _ hv]
        rw [show jdump (.str s) ++ rest = '"' :: (jescStr s ++ '"' :: rest) by
          simp [jdump, jdumpStr]]
        simp only []
        rw [if_neg (by decide : ¬('"' : Char) = 'n'), if_neg (by decide : ¬('"' : Char) = 't'),
          if_neg (by decide : ¬('"' : Char) = 'f'), if_pos (trivial : True)]
        rw [parseStrBody_jescStr]
        rfl
      | arr a =>
        cases a with
        | nil =>
          simp only [parseVal]
          rw [jskipWs_jdump _ hv]
          exact rfl
        | cons w r =>
          have hva : jvalidArr (.cons w r) = true := by simpa [jvalid] using hv
          have hw : jvalid w = true ∧ jvalidArr r = true := by
            rw [← Bool.and_eq_true]
            simpa [jvalidArr] using hva
          simp only [parseVal]
          rw [jskipWs_jdump _ hv]
          rw [show jdump (.arr (.cons w r)) ++ rest
              = '[' :: (jdumpArr (.cons w r) ++ ']' :: rest) by simp [jdump]]
          simp only []
          rw [if_neg (by decide : ¬('[' : Char) = 'n'), if_neg (by decide : ¬('[' : Char) = 't'),
            if_neg (by decide : ¬('[' : Char) = 'f'), if_neg (by decide : ¬('[' : Char) = '"'),
            if_pos (trivial : True)]
          obtain ⟨ca, ta, haeq, haws⟩ := jdumpArr_head w r hw.1
          rw [show jdumpArr (.cons w r) ++ ']' :: rest = ca :: (ta ++ ']' :: rest) by
            rw [haeq]; simp]
          rw [show jskipWs (ca :: (ta ++ ']' :: rest)) = ca :: (ta ++ ']' :: rest) by
            simp [jskipWs, List.dropWhile_cons, valueStart_not_ws haws]]
          simp only []
          rw [if_neg (valueStart_ne haws (by decide : valueStart ']' = false))]
          rw [show ca :: (ta ++ ']' :: rest) = jdumpArr (.cons w r) ++ ']' :: rest by
            rw [haeq]; simp]
          rw [ihA w r hva (by
            have he : jfuel (.arr (.cons w r)) = jfuelArr (.cons w r) + 1 := rfl
            omega) rest]
          rfl
      | obj o =>
        cases o with
        | nil =>
          simp only [parseVal]
          rw [jskipWs_jdump _ hv]
          exact rfl
        | cons k w r =>
          have hvo : jvalidObj (.cons k w r) = true := by simpa [jvalid] using hv
          simp only [parseVal]
          rw [jskipWs_jdump _ hv]
          rw [show jdump (.obj (.cons k w r)) ++ rest
              = '{' :: (jdumpObj (.cons k w r) ++ '}' :: rest) by simp [jdump]]
          simp only []
          rw [if_neg (by decide : ¬('{' : Char) = 'n'), if_neg (by decide : ¬('{' : Char) = 't'),
            if_neg (by decide : ¬('{' : Char) = 'f'), if_neg (by decide : ¬('{' : Char) = '"'),
            if_neg (by decide : ¬('{' : Char) = '['), if_pos (trivial : True)]
          obtain ⟨tObj, hoeq⟩ := jdumpObj_head k w r
          rw [show jdumpObj (.cons k w r) ++ '}' :: rest = '"' :: (tObj ++ '}' :: rest) by
            rw [hoeq]; simp]
          rw [show jskipWs ('"' :: (tObj ++ '}' :: rest)) = '"' :: (tObj ++ '}' :: rest) from rfl]
          simp only []
          rw [if_neg (by decide : ¬('"' : Char) = '}')]
          rw [show '"' :: (tObj ++ '}' :: rest) = jdumpObj (.cons k w r) ++ '}' :: rest by
            rw [hoeq]; simp]
          rw [ihO k w r hvo (by
            have he : jfuel (.obj (.cons k w r)) = jfuelObj (.cons k w r) + 1 := rfl
            omega) rest]
          rfl
    ·
      intro v r hva hf rest
      have hw : jvalid v = true ∧ jvalidArr r = true := by
        rw [← Bool.and_eq_true]
        simpa [jvalidArr] using hva
      have hfv : jfuel v ≤ f := by
        have he : jfuelArr (.cons v r) = Nat.max (jfuel v) (jfuelArr r) + 1 := rfl
        have hm : jfuel v ≤ Nat.max (jfuel v) (jfuelArr r) := Nat.le_max_left _ _
        omega
      cases r with
      | nil =>
        simp only [parseArrItems]
        rw [show jdumpArr (.cons v .nil) ++ ']' :: rest = jdump v ++ ']' :: rest from rfl]
        rw [ihV v hw.1 hfv (']' :: rest) (by rfl)]
        rfl
      | cons w r2 =>
        simp only [parseArrItems]
        rw [show jdumpArr (.cons v (.cons w r2)) ++ ']' :: rest
            = jdump v ++ (',' :: (jdumpArr (.cons w r2) ++ ']' :: rest)) by
          rw [show jdumpArr (.cons v (.cons w r2))
              = jdump v ++ ',' :: jdumpArr (.cons w r2) from rfl]
          simp]
        rw [ihV v hw.1 hfv (',' :: (jdumpArr (.cons w r2) ++ ']' :: rest)) (by rfl)]
        simp only []
        rw [show jskipWs (',' :: (jdumpArr (.cons w r2) ++ ']' :: rest))
            = ',' :: (jdumpArr (.cons w r2) ++ ']' :: rest) from rfl]
        simp only []
        rw [if_pos (trivial : True)]
        rw [ihA w r2 hw.2 (by
          have he : jfuelArr (.cons v (.cons w r2))
              = Nat.max (jfuel v) (jfuelArr (.cons w r2)) + 1 := rfl
          have hm : jfuelArr (.cons w r2) ≤ Nat.max (jfuel v) (jfuelArr (.cons w r2)) :=
            Nat.le_max_right _ _
          omega) rest]
        rfl
    ·
      intro k v r hvo hf rest
      have hw : jvalid v = true ∧ jvalidObj r = true := by
        have he : jvalidObj (.cons k v r) = (jvalid v && keyAbsent k r && jvalidObj r) := rfl
        rw [he] at hvo
        simp only [Bool.and_eq_true] at hvo
        exact ⟨hvo.1.1, hvo.2⟩
      have hfv : jfuel v ≤ f := by
        have he : jfuelObj (.cons k v r) = Nat.max (jfuel v) (jfuelObj r) + 1 := rfl
        have hm : jfuel v ≤ Nat.max (jfuel v) (jfuelObj r) := Nat.le_max_left _ _
        omega
      cases r with
      | nil =>
        simp only [parseObjItems]
        rw [show jdumpObj (.cons k v .nil) ++ '}' :: rest
            = '"' :: (jescStr k ++ '"' :: (':' :: (jdump v ++ '}' :: rest))) by
          rw [show jdumpObj (.cons k v .nil) = jdumpStr k ++ ':' :: jdump v from rfl, jdumpStr]
          simp]
        rw [show jskipWs ('"' :: (jescStr k ++ '"' :: (':' :: (jdump v ++ '}' :: rest))))
            = '"' :: (jescStr k ++ '"' :: (':' :: (jdump v ++ '}' :: rest))) from rfl]
        simp only []
        rw [if_pos (trivial : True)]
        rw [parseStrBody_jescStr]
        simp only []
        rw [show jskipWs (':' :: (jdump v ++ '}' :: rest))
            = ':' :: (jdump v ++ '}' :: rest) from rfl]
        simp only []
        rw [if_pos (trivial : True)]
        rw [ihV v hw.1 hfv ('}' :: rest) (by rfl)]
        rfl
      | cons k2 w r2 =>
        simp only [parseObjItems]
        rw [show jdumpObj (.cons k v (.cons k2 w r2)) ++ '}' :: rest
            = '"' :: (jescStr k ++ '"' :: (':' :: (jdump v
                ++ (',' :: (jdumpObj (.cons k2 w r2) ++ '}' :: rest))))) by
          rw [show jdumpObj (.cons k v (.cons k2 w r2))
              = jdumpStr k ++ ':' :: jdump v ++ ',' :: jdumpObj (.cons k2 w r2) from rfl, jdumpStr]
          simp]
        rw [show jskipWs ('"' :: (jescStr k ++ '"' :: (':' :: (jdump v
            ++ (',' :: (jdumpObj (.cons k2 w r2) ++ '}' :: rest))))))
            = '"' :: (jescStr k ++ '"' :: (':' :: (jdump v
            ++ (',' :: (jdumpObj (.cons k2 w r2) ++ '}' :: rest))))) from rfl]
        simp only []
        rw [if_pos (trivial : True)]
        rw [parseStrBody_jescStr]
        simp only []
        rw [show jskipWs (':' :: (jdump v ++ (',' :: (jdumpObj (.cons k2 w r2) ++ '}' :: rest))))
            = ':' :: (jdump v ++ (',' :: (jdumpObj (.cons k2 w r2) ++ '}' :: rest))) from rfl]
        simp only []
        rw [if_pos (trivial : True)]
        rw [ihV v hw.1 hfv
          (',' :: (jdumpObj (.cons k2 w r2) ++ '}' :: rest)) (by rfl)]
        simp only []
        rw [show jskipWs (',' :: (jdumpObj (.cons k2 w r2) ++ '}' :: rest))
            = ',' :: (jdumpObj (.cons k2 w r2) ++ '}' :: rest) from rfl]
        simp only []
        rw [if_pos (trivial : True)]
        rw [ihO k2 w r2 hw.2 (by
          have he : jfuelObj (.cons k v (.cons k2 w r2))
              = Nat.max (jfuel v) (jfuelObj (.cons k2 w r2)) + 1 := rfl
          have hm : jfuelObj (.cons k2 w r2) ≤ Nat.max (jfuel v) (jfuelObj (.cons k2 w r2)) :=
            Nat.le_max_right _ _
          omega) rest]
        rfl

theorem parseVal_jdump (v : JValue) (hv : jvalid v = true) (fuel : Nat) (hf : jfuel v ≤ fuel)
    (rest : Str) (hrest : restStop rest = true) :
    parseVal fuel (jdump v ++ rest) = some (v, rest) :=
  (parse_jdump_all fuel).1 v hv hf rest hrest

lemma jfuelArr_pos (a : JArr) : 1 ≤ jfuelArr a := by
  cases a
  · exact Nat.le_refl 1
  · rw [show jfuelArr (.cons _ _) = Nat.max (jfuel _) (jfuelArr _) + 1 from rfl]
    omega

lemma jfuelObj_pos (o : JObj) : 1 ≤ jfuelObj o := by
  cases o
  · exact Nat.le_refl 1
  · rw [show jfuelObj (.cons _ _ _) = Nat.max (jfuel _) (jfuelObj _) + 1 from rfl]
    omega

lemma jdump_len_pos (v : JValue) (hv : jvalid v = true) : 1 ≤ (jdump v).length := by
  obtain ⟨c, t, he, _⟩ := jdump_head v hv
  rw [he]
  simp

/-- The parser fuel needed for a valid document is bounded by its dumped
length (so `json_loads`'s `length + 1` budget always suffices). -/
lemma jdump_len_all : ∀ (n : Nat),
    (∀ (v : JValue), jfuel v ≤ n → jvalid v = true → jfuel v ≤ (jdump v).length) ∧
    (∀ (a : JArr), jfuelArr a ≤ n → jvalidArr a = true →
      jfuelArr a ≤ (jdumpArr a).length + 1) ∧
    (∀ (o : JObj), jfuelObj o ≤ n → jvalidObj o = true →
      jfuelObj o ≤ (jdumpObj o).length + 1) := by
  intro n
  induction n with
  | zero =>
    refine ⟨?_, ?_, ?_⟩
    · intro v h0 _
      exact absurd h0 (by have := jfuel_pos v; omega)
    · intro a h0 _
      exact absurd h0 (by have := jfuelArr_pos a; omega)
    · intro o h0 _
      exact absurd h0 (by have := jfuelObj_pos o; omega)
  | succ m ih =>
    obtain ⟨ihV, ihA, ihO⟩ := ih
    refine ⟨?_, ?_, ?_⟩
    · intro v hn hv
      cases v with
      | null => simp [jfuel, jdump, lit]
      | bool b => cases b <;> simp [jfuel, jdump, lit]
      | num l =>
        cases l with
        | nil => exact absurd hv (by decide)
        | cons c t => simp [jfuel, jdump]
      | str s =>
        rw [show jfuel (.str s) = 1 from rfl, show jdump (.str s) = jdumpStr s from rfl,
          jdumpStr]
        simp
      | arr a =>
        have h1 : jfuelArr a ≤ m := by
          rw [show jfuel (.arr a) = jfuelArr a + 1 from rfl] at hn
          omega
        have h2 := ihA a h1 (by simpa [jvalid] using hv)
        rw [show jfuel (.arr a) = jfuelArr a + 1 from rfl,
          show jdump (.arr a) = '[' :: (jdumpArr a ++ [']']) from rfl]
        simp only [List.length_cons, List.length_append, List.length_singleton]
        omega
      | obj o =>
        have h1 : jfuelObj o ≤ m := by
          rw [show jfuel (.obj o) = jfuelObj o + 1 from rfl] at hn
          omega
        have h2 := ihO o h1 (by simpa [jvalid] using hv)
        rw [show jfuel (.obj o) = jfuelObj o + 1 from rfl,
          show jdump (.obj o) = '{' :: (jdumpObj o ++ ['}']) from rfl]
        simp only [List.length_cons, List.length_append, List.length_singleton]
        omega
    · intro a hn hva
      cases a with
      | nil => simp [jfuelArr, jdumpArr]
      | cons v r =>
        have he : jfuelArr (.cons v r) = Nat.max (jfuel v) (jfuelArr r) + 1 := rfl
        have hw : jvalid v = true ∧ jvalidArr r = true := by
          rw [← Bool.and_eq_true]
          simpa [jvalidArr] using hva
        have hfv : jfuel v ≤ m := by
          have hm : jfuel v ≤ Nat.max (jfuel v) (jfuelArr r) := Nat.le_max_left _ _
          omega
        have hfr : jfuelArr r ≤ m := by
          have hm : jfuelArr r ≤ Nat.max (jfuel v) (jfuelArr r) := Nat.le_max_right _ _
          omega
        have b1 := ihV v hfv hw.1
        have b2 := ihA r hfr hw.2
        have bpos := jdump_len_pos v hw.1
        cases r with
        | nil =>
          rw [he, show jdumpArr (.cons v .nil) = jdump v from rfl]
          have : Nat.max (jfuel v) (jfuelArr .nil) ≤ (jdump v).length := by
            rw [show jfuelArr .nil = 1 from rfl]
            exact Nat.max_le.mpr ⟨b1, bpos⟩
          omega
        | cons w r2 =>
          rw [he, show jdumpArr (.cons v (.cons w r2))
              = jdump v ++ ',' :: jdumpArr (.cons w r2) from rfl]
          simp only [List.length_append, List.length_cons]
          have : Nat.max (jfuel v) (jfuelArr (.cons w r2))
              ≤ (jdump v).length + (jdumpArr (.cons w r2)).length + 1 :=
            Nat.max_le.mpr ⟨by omega, by omega⟩
          omega
    · intro o hn hvo
      cases o with
      | nil => simp [jfuelObj, jdumpObj]
      | cons k v r =>
        have he : jfuelObj (.cons k v r) = Nat.max (jfuel v) (jfuelObj r) + 1 := rfl
        have hw : jvalid v = true ∧ jvalidObj r = true := by
          have he2 : jvalidObj (.cons k v r) = (jvalid v && keyAbsent k r && jvalidObj r) := rfl
          rw [he2] at hvo
          simp only [Bool.and_eq_true] at hvo
          exact ⟨hvo.1.1, hvo.2⟩
        have hfv : jfuel v ≤ m := by
          have hm : jfuel v ≤ Nat.max (jfuel v) (jfuelObj r) := Nat.le_max_left _ _
          omega
        have hfr : jfuelObj r ≤ m := by
          have hm : jfuelObj r ≤ Nat.max (jfuel v) (jfuelObj r) := Nat.le_max_right _ _
          omega
        have b1 := ihV v hfv hw.1
        have b2 := ihO r hfr hw.2
        have hkey : (jdumpStr k).length = (jescStr k).length + 2 := by
          rw [jdumpStr]
          simp
        cases r with
        | nil =>
          rw [he, show jdumpObj (.cons k v .nil) = jdumpStr k ++ ':' :: jdump v from rfl]
          simp only [List.length_append, List.length_cons]
          have : Nat.max (jfuel v) (jfuelObj .nil)
              ≤ (jdumpStr k).length + (jdump v).length + 1 := by
            rw [show jfuelObj .nil = 1 from rfl]
            exact Nat.max_le.mpr ⟨by omega, by omega⟩
          omega
        | cons k2 w r2 =>
          rw [he, show jdumpObj (.cons k v (.cons k2 w r2))
              = jdumpStr k ++ ':' :: jdump v ++ ',' :: jdumpObj (.cons k2 w r2) from rfl]
          simp only [List.length_append, List.length_cons]
          have : Nat.max (jfuel v) (jfuelObj (.cons k2 w r2))
              ≤ (jdumpStr k).length + ((jdump v).length
                + ((jdumpObj (.cons k2 w r2)).length + 1) + 1) :=
            Nat.max_le.mpr ⟨by omega, by omega⟩
          omega

/-- `json.loads (json.dumps v) == v` for every valid document. -/
theorem json_loads_jdump (v : JValue) (hv : jvalid v = true) :
    json_loads (jdump v) = some v := by
  have hb : jfuel v ≤ (jdump v).length + 1 := by
    have := (jdump_len_all (jfuel v)).1 v (Nat.le_refl _) hv
    omega
  have hp := parseVal_jdump v hv ((jdump v).length + 1) hb [] (by rfl)
  rw [List.append_nil] at hp
  rw [json_loads, hp]
  rfl

/-! ## `urllib.parse.quote` / `unquote`

`quote(s, safe="")` UTF-8-encodes the string and percent-escapes every byte
outside urllib's always-safe set (ASCII letters, digits, `_ . - ~`).
`unquote` percent-decodes maximal ASCII runs to bytes and UTF-8-decodes them
with `errors="replace"` (one U+FFFD per maximal invalid subpart, CPython's
behaviour); non-ASCII characters pass through untouched. -/

lemma charToNat_ofNat {n : Nat} (h : Nat.isValidChar n) : (Char.ofNat n).toNat = n := by
  simp [Char.ofNat, h, Char.ofNatAux, Char.toNat, UInt32.toNat]

lemma charToNat_ofNat_ascii {n : Nat} (h : n < 0x80) : (Char.ofNat n).toNat = n :=
  charToNat_ofNat (Or.inl (by omega))

/-- UTF-8 bytes of one scalar value. -/
def utf8Bytes (c : Char) : List Nat :=
  let n := c.toNat
  if n < 0x80 then [n]
  else if n < 0x800 then [0xC0 + n / 0x40, 0x80 + n % 0x40]
  else if n < 0x10000 then [0xE0 + n / 0x1000, 0x80 + n / 0x40 % 0x40, 0x80 + n % 0x40]
  else [0xF0 + n / 0x40000, 0x80 + n / 0x1000 % 0x40, 0x80 + n / 0x40 % 0x40, 0x80 + n % 0x40]

/-- urllib's `_ALWAYS_SAFE` set: ASCII letters, digits, and `_ . - ~`
(stated numerically on code points). -/
def alwaysSafe (c : Char) : Bool :=
  (65 ≤ c.toNat && c.toNat ≤ 90) || (97 ≤ c.toNat && c.toNat ≤ 122) ||
    (48 ≤ c.toNat && c.toNat ≤ 57) || c.toNat == 95 || c.toNat == 46 ||
    c.toNat == 45 || c.toNat == 126

/-- Upper-case hex digit, as `%XX` escapes use. -/
def hexU (n : Nat) : Char :=
  if n < 10 then Char.ofNat ('0'.toNat + n) else Char.ofNat ('A'.toNat + n - 10)

/-- Quote a single byte. -/
def quoteByte (b : Nat) : Str :=
  if b < 0x80 && alwaysSafe (Char.ofNat b) then [Char.ofNat b]
  else ['%', hexU (b / 16), hexU (b % 16)]

def quoteBytes : List Nat → Str
  | [] => []
  | b :: r => quoteByte b ++ quoteBytes r

/-- `urllib.parse.quote(s, safe="")`. -/
def pyQuote : Str → Str
  | [] => []
  | c :: t => quoteBytes (utf8Bytes c) ++ pyQuote t

/-- `unquote_to_bytes` on an ASCII chunk: literal characters become their
code-point byte, `%XX` (hex, either case) becomes a byte, a malformed `%`
stays literal. -/
def pctBytesGo : Nat → Str → List Nat
  | _, [] => []
  | 0, _ => []
  | fuel + 1, c :: t =>
    if c = '%' then
      match t with
      | a :: b :: t2 =>
        (match hexVal a, hexVal b with
         | some x, some y => (16 * x + y) :: pctBytesGo fuel t2
         | _, _ => c.toNat :: pctBytesGo fuel t)
      | _ => c.toNat :: pctBytesGo fuel t
    else c.toNat :: pctBytesGo fuel t

def pctBytes (s : Str) : List Nat := pctBytesGo s.length s

/-- UTF-8 decoding with `errors="replace"`: on an ill-formed sequence, emit
one U+FFFD per maximal invalid subpart and resume (CPython / WHATWG). -/
def utf8DecodeGo : Nat → List Nat → Str
  | _, [] => []
  | 0, _ => []
  | fuel + 1, b :: t =>
    if b < 0x80 then Char.ofNat b :: utf8DecodeGo fuel t
    else if 0xC2 ≤ b ∧ b ≤ 0xDF then
      match t with
      | [] => [Char.ofNat 0xFFFD]
      | b2 :: t2 =>
        if 0x80 ≤ b2 ∧ b2 ≤ 0xBF then
          Char.ofNat ((b - 0xC0) * 0x40 + (b2 - 0x80)) :: utf8DecodeGo fuel t2
        else Char.ofNat 0xFFFD :: utf8DecodeGo fuel t
    else if 0xE0 ≤ b ∧ b ≤ 0xEF then
      match t with
      | [] => [Char.ofNat 0xFFFD]
      | b2 :: t2 =>
        if (b = 0xE0 ∧ 0xA0 ≤ b2 ∧ b2 ≤ 0xBF)
            ∨ (0xE1 ≤ b ∧ b ≤ 0xEC ∧ 0x80 ≤ b2 ∧ b2 ≤ 0xBF)
            ∨ (b = 0xED ∧ 0x80 ≤ b2 ∧ b2 ≤ 0x9F)
            ∨ (0xEE ≤ b ∧ 0x80 ≤ b2 ∧ b2 ≤ 0xBF) then
          match t2 with
          | [] => [Char.ofNat 0xFFFD]
          | b3 :: t3 =>
            if 0x80 ≤ b3 ∧ b3 ≤ 0xBF then
              Char.ofNat ((b - 0xE0) * 0x1000 + (b2 - 0x80) * 0x40 + (b3 - 0x80))
                :: utf8DecodeGo fuel t3
            else Char.ofNat 0xFFFD :: utf8DecodeGo fuel t2
        else Char.ofNat 0xFFFD :: utf8DecodeGo fuel t
    else if 0xF0 ≤ b ∧ b ≤ 0xF4 then
      match t with
      | [] => [Char.ofNat 0xFFFD]
      | b2 :: t2 =>
        if (b = 0xF0 ∧ 0x90 ≤ b2 ∧ b2 ≤ 0xBF)
            ∨ (0xF1 ≤ b ∧ b ≤ 0xF3 ∧ 0x80 ≤ b2 ∧ b2 ≤ 0xBF)
            ∨ (b = 0xF4 ∧ 0x80 ≤ b2 ∧ b2 ≤ 0x8F) then
          match t2 with
          | [] => [Char.ofNat 0xFFFD]
          | b3 :: t3 =>
            if 0x80 ≤ b3 ∧ b3 ≤ 0xBF then
              match t3 with
              | [] => [Char.ofNat 0xFFFD]
              | b4 :: t4 =>
                if 0x80 ≤ b4 ∧ b4 ≤ 0xBF then
                  Char.ofNat ((b - 0xF0) * 0x40000 + (b2 - 0x80) * 0x1000
                      + (b3 - 0x80) * 0x40 + (b4 - 0x80)) :: utf8DecodeGo fuel t4
                else Char.ofNat 0xFFFD :: utf8DecodeGo fuel t3
            else Char.ofNat 0xFFFD :: utf8DecodeGo fuel t2
        else Char.ofNat 0xFFFD :: utf8DecodeGo fuel t
    else Char.ofNat 0xFFFD :: utf8DecodeGo fuel t

/-- UTF-8 decoding with `errors="replace"` (fuel wrapper). -/
def utf8DecodeReplace (bs : List Nat) : Str := utf8DecodeGo bs.length bs

def isAsciiC (c : Char) : Bool := c.toNat < 0x80

/-- Worker for `unquote` (fuel = remaining length, always sufficient): ASCII
runs are percent-decoded to bytes and UTF-8-decoded, other characters pass
through. -/
def unquoteGo : Nat → Str → Str
  | _, [] => []
  | 0, s => s
  | fuel + 1, c :: t =>
    if isAsciiC c then
      utf8DecodeReplace (pctBytes ((c :: t).takeWhile isAsciiC))
        ++ unquoteGo fuel ((c :: t).dropWhile isAsciiC)
    else c :: unquoteGo fuel t

/-- `urllib.parse.unquote` (default UTF-8 / `replace`). -/
def unquote (s : Str) : Str :=
  if strContains s (lit "%") then unquoteGo s.length s else s

lemma char_ne_of_toNat_ne {c d : Char} (h : c.toNat ≠ d.toNat) : c ≠ d :=
  fun e => h (by rw [e])

lemma hexVal_hexU {k : Nat} (h : k < 16) : hexVal (hexU k) = some k := by
  interval_cases k <;> decide

lemma hexU_props {k : Nat} (h : k < 16) :
    (hexU k).toNat < 0x80 ∧ isSpace (hexU k) = false ∧ hexU k ≠ '#' := by
  interval_cases k <;> exact ⟨by decide, by decide, by decide⟩

lemma alwaysSafe_props {c : Char} (h : alwaysSafe c = true) :
    c.toNat ≠ 37 ∧ c.toNat ≠ 35 ∧ isSpace c = false := by
  simp only [alwaysSafe, Bool.or_eq_true, Bool.and_eq_true, decide_eq_true_eq,
    beq_iff_eq] at h
  have hb : (65 ≤ c.toNat ∧ c.toNat ≤ 90) ∨ (97 ≤ c.toNat ∧ c.toNat ≤ 122)
      ∨ (48 ≤ c.toNat ∧ c.toNat ≤ 57) ∨ c.toNat = 95 ∨ c.toNat = 46
      ∨ c.toNat = 45 ∨ c.toNat = 126 := by tauto
  refine ⟨by omega, by omega, ?_⟩
  have hsp : ∀ (d : Char) (m : Nat), d.toNat = m → c.toNat ≠ m → (c == d) = false := by
    intro d m hm hne
    exact beq_eq_false_iff_ne.mpr (char_ne_of_toNat_ne (by rw [hm]; exact hne))
  simp only [isSpace, Bool.or_eq_false_iff]
  exact ⟨⟨⟨⟨⟨hsp ' ' 32 rfl (by omega), hsp '\t' 9 rfl (by omega)⟩,
    hsp '\n' 10 rfl (by omega)⟩, hsp '\r' 13 rfl (by omega)⟩,
    hsp '\x0b' 11 rfl (by omega)⟩, hsp '\x0c' 12 rfl (by omega)⟩

lemma strContains_char (ch : Char) : ∀ (s : Str), strContains s [ch] = true ↔ ch ∈ s := by
  intro s
  induction s with
  | nil => simp [strContains]
  | cons c t ih =>
    rw [strContains, Bool.or_eq_true]
    constructor
    · intro h
      rcases h with h | h
      · have hp2 : ch = c := by
          cases hp : List.isPrefixOf [ch] (c :: t)
          · rw [hp] at h; exact Bool.noConfusion h
          · have hp3 := hp
            simp [List.isPrefixOf] at hp3
            exact hp3
        rw [hp2]
        exact List.mem_cons_self _ _
      · exact List.mem_cons_of_mem _ (ih.mp h)
    · intro h
      rcases List.mem_cons.mp h with h | h
      · subst h
        refine Or.inl ?_
        simp [List.isPrefixOf]
      · exact Or.inr (ih.mpr h)

lemma map_ofNat_toNat : ∀ (s : Str), (s.map Char.toNat).map Char.ofNat = s := by
  intro s
  induction s with
  | nil => rfl
  | cons c t ih => simp only [List.map_cons, Char.ofNat_toNat, ih]

lemma pctBytesGo_cons {f : Nat} {c : Char} {t : Str} (h : ¬c = '%') :
    pctBytesGo (f + 1) (c :: t) = c.toNat :: pctBytesGo f t := by
  rw [pctBytesGo.eq_def]
  simp only [if_neg h]

lemma pctBytesGo_pct {f : Nat} {a b : Char} {t2 : Str} {x y : Nat}
    (ha : hexVal a = some x) (hb : hexVal b = some y) :
    pctBytesGo (f + 1) ('%' :: a :: b :: t2) = (16 * x + y) :: pctBytesGo f t2 := by
  rw [pctBytesGo.eq_def]
  simp only [reduceIte, ha, hb]

lemma utf8DecodeGo_cons {f : Nat} {b : Nat} {t : List Nat} (h : b < 0x80) :
    utf8DecodeGo (f + 1) (b :: t) = Char.ofNat b :: utf8DecodeGo f t := by
  rw [utf8DecodeGo.eq_def]
  simp only [if_pos h]

/-- Percent-decoding inverts quoting, byte level (ASCII input). -/
lemma pctBytesGo_pyQuote : ∀ (s : Str), (∀ c ∈ s, c.toNat < 0x80) →
    ∀ (fuel : Nat), (pyQuote s).length ≤ fuel →
      pctBytesGo fuel (pyQuote s) = s.map Char.toNat := by
  intro s
  induction s with
  | nil =>
    intro _ fuel _
    rw [show pyQuote [] = [] from rfl]
    cases fuel <;> rfl
  | cons c t ih =>
    intro hascii fuel hfuel
    have hc : c.toNat < 0x80 := hascii c (List.mem_cons_self _ _)
    have ht : ∀ x ∈ t, x.toNat < 0x80 := fun x hx => hascii x (List.mem_cons_of_mem _ hx)
    have hq : pyQuote (c :: t) = quoteByte c.toNat ++ pyQuote t := by
      rw [show pyQuote (c :: t) = quoteBytes (utf8Bytes c) ++ pyQuote t from rfl]
      rw [show utf8Bytes c = [c.toNat] by rw [utf8Bytes]; simp [hc]]
      rw [show quoteBytes [c.toNat] = quoteByte c.toNat ++ [] from rfl]
      simp
    by_cases hsafe : (decide (c.toNat < 0x80) && alwaysSafe (Char.ofNat c.toNat)) = true
    · have hqb : quoteByte c.toNat = [Char.ofNat c.toNat] := by
        rw [quoteByte, if_pos hsafe]
      rw [hq, hqb, Char.ofNat_toNat] at hfuel ⊢
      obtain ⟨f, rfl⟩ : ∃ f, fuel = f + 1 := ⟨fuel - 1, by
        simp only [List.length_cons, List.singleton_append] at hfuel ⊢
        omega⟩
      have hne : ¬c = '%' := by
        have hprops := alwaysSafe_props (by
          rw [Char.ofNat_toNat] at hsafe
          exact (Bool.and_eq_true _ _ ▸ hsafe).2)
        apply char_ne_of_toNat_ne
        rw [show ('%').toNat = 37 from rfl]
        exact hprops.1
      rw [List.singleton_append, pctBytesGo_cons hne, ih ht f (by
        simp only [List.length_cons, List.singleton_append] at hfuel
        omega)]
      rfl
    · have hqb : quoteByte c.toNat
          = ['%', hexU (c.toNat / 16), hexU (c.toNat % 16)] := by
        rw [quoteByte, if_neg hsafe]
      rw [hq, hqb] at hfuel ⊢
      obtain ⟨f, rfl⟩ : ∃ f, fuel = f + 1 := ⟨fuel - 1, by
        simp only [List.length_append, List.length_cons] at hfuel ⊢
        omega⟩
      rw [List.cons_append, List.cons_append, List.cons_append, List.nil_append]
      rw [pctBytesGo_pct (hexVal_hexU (by omega : c.toNat / 16 < 16))
        (hexVal_hexU (Nat.mod_lt _ (by norm_num) : c.toNat % 16 < 16))]
      rw [ih ht f (by
        simp only [List.length_append, List.length_cons] at hfuel
        omega)]
      rw [show 16 * (c.toNat / 16) + c.toNat % 16 = c.toNat by omega]
      rfl

/-- UTF-8 decoding of pure-ASCII bytes is the identity embedding. -/
lemma utf8DecodeGo_ascii : ∀ (bs : List Nat), (∀ b ∈ bs, b < 0x80) →
    ∀ (fuel : Nat), bs.length ≤ fuel → utf8DecodeGo fuel bs = bs.map Char.ofNat := by
  intro bs
  induction bs with
  | nil =>
    intro _ fuel _
    cases fuel <;> rfl
  | cons b t ih =>
    intro hb fuel hf
    obtain ⟨f, rfl⟩ : ∃ f, fuel = f + 1 := ⟨fuel - 1, by
      simp only [List.length_cons] at hf
      omega⟩
    rw [utf8DecodeGo_cons (hb b (List.mem_cons_self _ _))]
    rw [ih (fun x hx => hb x (List.mem_cons_of_mem _ hx)) f (by
      simp only [List.length_cons] at hf
      omega)]
    rfl

/-- Every character that `quote` emits (on ASCII input) is ASCII, not
whitespace, and not `'#'`. -/
lemma pyQuote_chars : ∀ (s : Str), (∀ c ∈ s, c.toNat < 0x80) →
    ∀ c' ∈ pyQuote s, isAsciiC c' = true ∧ isSpace c' = false ∧ c' ≠ '#' := by
  intro s
  induction s with
  | nil => intro _ c' h; exact absurd h (by simp [pyQuote])
  | cons c t ih =>
    intro hascii c' hmem
    have hc : c.toNat < 0x80 := hascii c (List.mem_cons_self _ _)
    have ht : ∀ x ∈ t, x.toNat < 0x80 := fun x hx => hascii x (List.mem_cons_of_mem _ hx)
    have hq : pyQuote (c :: t) = quoteByte c.toNat ++ pyQuote t := by
      rw [show pyQuote (c :: t) = quoteBytes (utf8Bytes c) ++ pyQuote t from rfl]
      rw [show utf8Bytes c = [c.toNat] by rw [utf8Bytes]; simp [hc]]
      rw [show quoteBytes [c.toNat] = quoteByte c.toNat ++ [] from rfl]
      simp
    rw [hq, List.mem_append] at hmem
    rcases hmem with hmem | hmem
    · by_cases hsafe : (decide (c.toNat < 0x80) && alwaysSafe (Char.ofNat c.toNat)) = true
      · rw [quoteByte, if_pos hsafe] at hmem
        have he : c' = Char.ofNat c.toNat := by simpa using hmem
        have hprops := alwaysSafe_props ((Bool.and_eq_true _ _ ▸ hsafe).2)
        have htn : (Char.ofNat c.toNat).toNat = c.toNat := charToNat_ofNat_ascii hc
        subst he
        refine ⟨?_, hprops.2.2, ?_⟩
        · simp only [isAsciiC, htn]
          exact decide_eq_true hc
        · apply char_ne_of_toNat_ne
          rw [show ('#').toNat = 35 from rfl]
          exact hprops.2.1
      · rw [quoteByte, if_neg hsafe] at hmem
        have hdiv : c.toNat / 16 < 16 := by omega
        have hmod : c.toNat % 16 < 16 := Nat.mod_lt _ (by norm_num)
        rw [List.mem_cons, List.mem_cons, List.mem_cons] at hmem
        rcases hmem with h1 | h1 | h1 | h1
        · subst h1
          exact ⟨by decide, by decide, by decide⟩
        · subst h1
          refine ⟨by simp [isAsciiC, (hexU_props hdiv).1], (hexU_props hdiv).2.1,
            (hexU_props hdiv).2.2⟩
        · subst h1
          refine ⟨by simp [isAsciiC, (hexU_props hmod).1], (hexU_props hmod).2.1,
            (hexU_props hmod).2.2⟩
        · exact absurd h1 (by simp)
    · exact ih ht c' hmem

/-- When `quote` escapes nothing, it is the identity. -/
lemma pyQuote_no_pct : ∀ (s : Str), (∀ c ∈ s, c.toNat < 0x80) →
    strContains (pyQuote s) (lit "%") = false → pyQuote s = s := by
  intro s
  induction s with
  | nil => intro _ _; rfl
  | cons c t ih =>
    intro hascii hnc
    have hc : c.toNat < 0x80 := hascii c (List.mem_cons_self _ _)
    have ht : ∀ x ∈ t, x.toNat < 0x80 := fun x hx => hascii x (List.mem_cons_of_mem _ hx)
    have hq : pyQuote (c :: t) = quoteByte c.toNat ++ pyQuote t := by
      rw [show pyQuote (c :: t) = quoteBytes (utf8Bytes c) ++ pyQuote t from rfl]
      rw [show utf8Bytes c = [c.toNat] by rw [utf8Bytes]; simp [hc]]
      rw [show quoteBytes [c.toNat] = quoteByte c.toNat ++ [] from rfl]
      simp
    have hnp : ('%' : Char) ∉ pyQuote (c :: t) := by
      intro hmem
      have h1 : strContains (pyQuote (c :: t)) ['%'] = true :=
        (strContains_char '%' (pyQuote (c :: t))).mpr hmem
      have h2 : strContains (pyQuote (c :: t)) ['%'] = false := hnc
      rw [h1] at h2
      exact Bool.noConfusion h2
    by_cases hsafe : (decide (c.toNat < 0x80) && alwaysSafe (Char.ofNat c.toNat)) = true
    · rw [hq, quoteByte, if_pos hsafe, Char.ofNat_toNat, List.singleton_append]
      rw [hq, quoteByte, if_pos hsafe, Char.ofNat_toNat, List.singleton_append] at hnp
      have : ('%' : Char) ∉ pyQuote t := fun hm => hnp (List.mem_cons_of_mem _ hm)
      rw [ih ht (by
        cases hcc : strContains (pyQuote t) (lit "%")
        · rfl
        · exact absurd ((strContains_char '%' (pyQuote t)).mp hcc) this)]
    · exfalso
      apply hnp
      rw [hq, quoteByte, if_neg hsafe]
      exact List.mem_append.mpr (Or.inl (List.mem_cons_self _ _))

/-- `unquote (quote s) == s` for ASCII strings (all the serializer emits). -/
theorem unquote_pyQuote (s : Str) (h : ∀ c ∈ s, c.toNat < 0x80) :
    unquote (pyQuote s) = s := by
  rw [unquote]
  cases hc : strContains (pyQuote s) (lit "%") with
  | false => rw [if_neg Bool.false_ne_true, pyQuote_no_pct s h hc]
  | true =>
    rw [if_pos rfl]
    cases hq : pyQuote s with
    | nil => rw [hq] at hc; exact absurd hc (by decide)
    | cons q qt =>
      have hchars := pyQuote_chars s h
      rw [hq] at hchars
      have hall : ∀ c' ∈ q :: qt, isAsciiC c' = true := fun c' hm => (hchars c' hm).1
      rw [show (q :: qt).length = qt.length + 1 from rfl, unquoteGo,
        if_pos (hall q (List.mem_cons_self _ _))]
      have htake := takeWhile_append_all (p := isAsciiC) (q :: qt) [] hall (by trivial)
      rw [List.append_nil] at htake
      rw [htake.1, htake.2]
      rw [show unquoteGo qt.length [] = [] by cases qt <;> rfl, List.append_nil]
      rw [← hq]
      rw [show pctBytes (pyQuote s) = pctBytesGo (pyQuote s).length (pyQuote s) from rfl]
      rw [pctBytesGo_pyQuote s h (pyQuote s).length (Nat.le_refl _)]
      rw [show utf8DecodeReplace (s.map Char.toNat)
          = utf8DecodeGo (s.map Char.toNat).length (s.map Char.toNat) from rfl]
      rw [utf8DecodeGo_ascii (s.map Char.toNat) (by
          intro b hb
          rw [List.mem_map] at hb
          obtain ⟨c, hc2, rfl⟩ := hb
          exact h c hc2) _ (Nat.le_refl _)]
      exact map_ofNat_toNat s

lemma hexL_ascii {k : Nat} (h : k < 16) : (hexL k).toNat < 0x80 := by
  interval_cases k <;> decide

lemma hex4L_ascii (n : Nat) : ∀ c ∈ hex4L n, c.toNat < 0x80 := by
  intro c hm
  rw [hex4L, List.mem_cons, List.mem_cons, List.mem_cons, List.mem_singleton] at hm
  rcases hm with rfl | rfl | rfl | rfl <;>
    exact hexL_ascii (Nat.mod_lt _ (by norm_num))

lemma uEsc_ascii (n : Nat) : ∀ c ∈ uEsc n, c.toNat < 0x80 := by
  intro c hm
  rw [uEsc] at hm
  split_ifs at hm
  · simp only [List.mem_cons] at hm
    rcases hm with rfl | rfl | hm
    · decide
    · decide
    · exact hex4L_ascii _ _ hm
  · simp only [List.mem_append, List.mem_cons] at hm
    rcases hm with (rfl | rfl | hm) | (rfl | rfl | hm)
    · decide
    · decide
    · exact hex4L_ascii _ _ hm
    · decide
    · decide
    · exact hex4L_ascii _ _ hm

lemma jescChar_ascii (c : Char) : ∀ c' ∈ jescChar c, c'.toNat < 0x80 := by
  intro c' hm
  rw [jescChar] at hm
  split_ifs at hm with h1 h2 h3 h4 h5 h6 h7 h8
  · simp only [List.mem_cons, List.mem_singleton, List.not_mem_nil, or_false] at hm
    rcases hm with rfl | rfl <;> decide
  · simp only [List.mem_cons, List.mem_singleton, List.not_mem_nil, or_false] at hm
    rcases hm with rfl | rfl <;> decide
  · simp only [List.mem_cons, List.mem_singleton, List.not_mem_nil, or_false] at hm
    rcases hm with rfl | rfl <;> decide
  · simp only [List.mem_cons, List.mem_singleton, List.not_mem_nil, or_false] at hm
    rcases hm with rfl | rfl <;> decide
  · simp only [List.mem_cons, List.mem_singleton, List.not_mem_nil, or_false] at hm
    rcases hm with rfl | rfl <;> decide
  · simp only [List.mem_cons, List.mem_singleton, List.not_mem_nil, or_false] at hm
    rcases hm with rfl | rfl <;> decide
  · simp only [List.mem_cons, List.mem_singleton, List.not_mem_nil, or_false] at hm
    rcases hm with rfl | rfl <;> decide
  · exact uEsc_ascii _ _ hm
  · simp only [List.mem_singleton] at hm
    subst hm
    simp only [Bool.or_eq_true, decide_eq_true_eq, not_or] at h8
    obtain ⟨ha, hb⟩ := h8
    omega

lemma jescStr_ascii : ∀ (s : Str), ∀ c' ∈ jescStr s, c'.toNat < 0x80 := by
  intro s
  induction s with
  | nil => intro c' hm; exact absurd hm (List.not_mem_nil _)
  | cons c t ih =>
    intro c' hm
    rw [jescStr, List.mem_append] at hm
    rcases hm with hm | hm
    · exact jescChar_ascii c c' hm
    · exact ih c' hm

lemma jdumpStr_ascii (s : Str) : ∀ c' ∈ jdumpStr s, c'.toNat < 0x80 := by
  intro c' hm
  rw [jdumpStr, List.mem_cons, List.mem_append, List.mem_singleton] at hm
  rcases hm with rfl | hm | rfl
  · decide
  · exact jescStr_ascii s c' hm
  · decide

lemma isNumChar_ascii {c : Char} (h : isNumChar c = true) : c.toNat < 0x80 := by
  simp only [isNumChar, jisDigit, Bool.or_eq_true, Bool.and_eq_true, beq_iff_eq,
    decide_eq_true_eq] at h
  rcases h with ((((⟨h1, h2⟩ | rfl) | rfl) | rfl) | rfl) | rfl
  · simp only [Char.le_def] at h2
    have h3 : c.toNat ≤ ('9').toNat := h2
    have h4 : ('9').toNat = 57 := rfl
    omega
  · decide
  · decide
  · decide
  · decide
  · decide

/-- Every character `json.dumps` emits for a valid document is ASCII
(`ensure_ascii=True`). -/
lemma jdump_ascii_all : ∀ (n : Nat),
    (∀ (v : JValue), jfuel v ≤ n → jvalid v = true → ∀ c ∈ jdump v, c.toNat < 0x80) ∧
    (∀ (a : JArr), jfuelArr a ≤ n → jvalidArr a = true →
      ∀ c ∈ jdumpArr a, c.toNat < 0x80) ∧
    (∀ (o : JObj), jfuelObj o ≤ n → jvalidObj o = true →
      ∀ c ∈ jdumpObj o, c.toNat < 0x80) := by
  intro n
  induction n with
  | zero =>
    refine ⟨?_, ?_, ?_⟩
    · intro v h0 _
      exact absurd h0 (by have := jfuel_pos v; omega)
    · intro a h0 _
      exact absurd h0 (by have := jfuelArr_pos a; omega)
    · intro o h0 _
      exact absurd h0 (by have := jfuelObj_pos o; omega)
  | succ m ih =>
    obtain ⟨ihV, ihA, ihO⟩ := ih
    refine ⟨?_, ?_, ?_⟩
    · intro v hn hv c hm
      cases v with
      | null =>
        rw [show jdump .null = ['n', 'u', 'l', 'l'] from rfl] at hm
        simp only [List.mem_cons, List.not_mem_nil, or_false] at hm
        rcases hm with rfl | rfl | rfl | rfl <;> decide
      | bool b =>
        cases b
        · rw [show jdump (.bool false) = ['f', 'a', 'l', 's', 'e'] from rfl] at hm
          simp only [List.mem_cons, List.not_mem_nil, or_false] at hm
          rcases hm with rfl | rfl | rfl | rfl | rfl <;> decide
        · rw [show jdump (.bool true) = ['t', 'r', 'u', 'e'] from rfl] at hm
          simp only [List.mem_cons, List.not_mem_nil, or_false] at hm
          rcases hm with rfl | rfl | rfl | rfl <;> decide
      | num l =>
        cases l with
        | nil => exact absurd hv (by decide)
        | cons d t =>
          have hall : (d :: t).all (fun x => isNumChar x) = true := by
            rw [show jvalid (.num (d :: t)) = numLitOkB (d :: t) from rfl, numLitOkB] at hv
            exact (Bool.and_eq_true _ _ ▸ hv).2
          rw [show jdump (.num (d :: t)) = d :: t from rfl] at hm
          exact isNumChar_ascii (List.all_eq_true.mp hall c hm)
      | str s =>
        rw [show jdump (.str s) = jdumpStr s from rfl] at hm
        exact jdumpStr_ascii s c hm
      | arr a =>
        have h1 : jfuelArr a ≤ m := by
          rw [show jfuel (.arr a) = jfuelArr a + 1 from rfl] at hn
          omega
        rw [show jdump (.arr a) = '[' :: (jdumpArr a ++ [']']) from rfl,
          List.mem_cons, List.mem_append, List.mem_singleton] at hm
        rcases hm with rfl | hm | rfl
        · decide
        · exact ihA a h1 (by simpa [jvalid] using hv) c hm
        · decide
      | obj o =>
        have h1 : jfuelObj o ≤ m := by
          rw [show jfuel (.obj o) = jfuelObj o + 1 from rfl] at hn
          omega
        rw [show jdump (.obj o) = '\x7b' :: (jdumpObj o ++ ['\x7d']) from rfl,
          List.mem_cons, List.mem_append, List.mem_singleton] at hm
        rcases hm with rfl | hm | rfl
        · decide
        · exact ihO o h1 (by simpa [jvalid] using hv) c hm
        · decide
    · intro a hn hva c hm
      cases a with
      | nil => exact absurd hm (by rw [show jdumpArr .nil = [] from rfl] at hm ⊢; exact List.not_mem_nil _)
      | cons v r =>
        have he : jfuelArr (.cons v r) = Nat.max (jfuel v) (jfuelArr r) + 1 := rfl
        have hw : jvalid v = true ∧ jvalidArr r = true := by
          rw [← Bool.and_eq_true]
          simpa [jvalidArr] using hva
        have hfv : jfuel v ≤ m := by
          have hmx : jfuel v ≤ Nat.max (jfuel v) (jfuelArr r) := Nat.le_max_left _ _
          rw [he] at hn
          omega
        have hfr : jfuelArr r ≤ m := by
          have hmx : jfuelArr r ≤ Nat.max (jfuel v) (jfuelArr r) := Nat.le_max_right _ _
          rw [he] at hn
          omega
        cases r with
        | nil =>
          rw [show jdumpArr (.cons v .nil) = jdump v from rfl] at hm
          exact ihV v hfv hw.1 c hm
        | cons w r2 =>
          rw [show jdumpArr (.cons v (.cons w r2))
              = jdump v ++ ',' :: jdumpArr (.cons w r2) from rfl,
            List.mem_append, List.mem_cons] at hm
          rcases hm with hm | rfl | hm
          · exact ihV v hfv hw.1 c hm
          · decide
          · exact ihA (.cons w r2) hfr hw.2 c hm
    · intro o hn hvo c hm
      cases o with
      | nil => exact absurd hm (by rw [show jdumpObj .nil = [] from rfl] at hm ⊢; exact List.not_mem_nil _)
      | cons k v r =>
        have he : jfuelObj (.cons k v r) = Nat.max (jfuel v) (jfuelObj r) + 1 := rfl
        have hw : jvalid v = true ∧ jvalidObj r = true := by
          have he2 : jvalidObj (.cons k v r) = (jvalid v && keyAbsent k r && jvalidObj r) := rfl
          rw [he2] at hvo
          simp only [Bool.and_eq_true] at hvo
          exact ⟨hvo.1.1, hvo.2⟩
        have hfv : jfuel v ≤ m := by
          have hmx : jfuel v ≤ Nat.max (jfuel v) (jfuelObj r) := Nat.le_max_left _ _
          rw [he] at hn
          omega
        have hfr : jfuelObj r ≤ m := by
          have hmx : jfuelObj r ≤ Nat.max (jfuel v) (jfuelObj r) := Nat.le_max_right _ _
          rw [he] at hn
          omega
        cases r with
        | nil =>
          rw [show jdumpObj (.cons k v .nil) = jdumpStr k ++ ':' :: jdump v from rfl,
            List.mem_append, List.mem_cons] at hm
          rcases hm with hm | rfl | hm
          · exact jdumpStr_ascii k c hm
          · decide
          · exact ihV v hfv hw.1 c hm
        | cons k2 w r2 =>
          rw [show jdumpObj (.cons k v (.cons k2 w r2))
              = jdumpStr k ++ ':' :: jdump v ++ ',' :: jdumpObj (.cons k2 w r2) from rfl] at hm
          simp only [List.mem_append, List.mem_cons] at hm
          rcases hm with (hm | rfl | hm) | rfl | hm
          · exact jdumpStr_ascii k c hm
          · decide
          · exact ihV v hfv hw.1 c hm
          · decide
          · exact ihO (.cons k2 w r2) hfr hw.2 c hm

lemma jdump_ascii (v : JValue) (hv : jvalid v = true) : ∀ c ∈ jdump v, c.toNat < 0x80 :=
  (jdump_ascii_all (jfuel v)).1 v (Nat.le_refl _) hv

/-! ## URL serialization: `to_url` / `from_url`
(`neuroglancer_state.py`, lines 163-223, dict-input branch). -/

def NEURO_BASE : Str := lit "https://neuroglancer-demo.appspot.com"

/-- `to_url(state)` for a dict state: `json.dumps(state, separators=(",", ":"))`,
`quote(_, safe="")`, then `f"{NEURO_BASE}#!{encoded}"`. -/
def to_url (state : JObj) : Str :=
  NEURO_BASE ++ '#' :: '!' :: pyQuote (jdump (.obj state))

/-- `s.split('#', 1)[1]` applied only when `'#' in s` (source line 214). -/
def fragmentOf (s0 : Str) : Str :=
  if strContains s0 (lit "#") then splitAfterFirst '#' s0 else s0

/-- Drop the optional leading `'!'` (source lines 216-217). -/
def dropBang (s1 : Str) : Str :=
  if startsWith (lit "!") s1 then s1.drop 1 else s1

/-- The `try/except` tail of `from_url`: decode, fall back to the raw string
when the decode is empty, parse; on failure parse the undecoded string
(source lines 219-223).  `none` models an escaping `json.JSONDecodeError`. -/
def fromFragment (s2 : Str) : Option JValue :=
  match json_loads (if (unquote s2).isEmpty then s2 else unquote s2) with
  | some v => some v
  | none => json_loads s2

/-- `from_url(url_or_fragment)` (source lines 199-223). -/
def from_url (u : Str) : Option JValue :=
  fromFragment (dropBang (fragmentOf (pyStrip u)))

lemma dropWhile_all_false {p : Char → Bool} {s : Str} (h : ∀ c ∈ s, p c = false) :
    s.dropWhile p = s := by
  cases s with
  | nil => rfl
  | cons c t =>
    rw [List.dropWhile_cons, h c (List.mem_cons_self _ _)]
    simp

lemma pyStrip_eq_self {s : Str} (h : ∀ c ∈ s, isSpace c = false) : pyStrip s = s := by
  rw [pyStrip, dropWhile_all_false h,
    dropWhile_all_false (fun c hc => h c (List.mem_reverse.mp hc))]
  exact List.reverse_reverse s

lemma splitAfterFirst_append (sep : Char) : ∀ (x y : Str), (∀ c ∈ x, (c == sep) = false) →
    splitAfterFirst sep (x ++ sep :: y) = y := by
  intro x
  induction x with
  | nil =>
    intro y _
    rw [List.nil_append, splitAfterFirst]
    simp
  | cons c t ih =>
    intro y hx
    rw [List.cons_append, splitAfterFirst,
      if_neg (by rw [hx c (List.mem_cons_self _ _)]; exact Bool.false_ne_true)]
    exact ih y (fun d hd => hx d (List.mem_cons_of_mem _ hd))

lemma NEURO_BASE_chars : ∀ c ∈ NEURO_BASE, isSpace c = false ∧ (c == '#') = false := by
  decide

/-- C1: round-trip.  For every valid state dict `s`,
`from_url (to_url s)` returns exactly `s`; in particular the decoded
`dimensions` mapping is the original one, key order included, and re-encoding
the decoded state reproduces the original URL
(`encode(decode(encode(s))) == encode(s)`). -/
theorem c1_roundtrip (s : JObj) (hv : jvalid (.obj s) = true) :
    from_url (to_url s) = some (JValue.obj s) ∧
    (∀ d : JObj, s.get? (lit "dimensions") = some (.obj d) →
      ∃ o : JObj, from_url (to_url s) = some (.obj o) ∧
        o.get? (lit "dimensions") = some (.obj d)) ∧
    (∀ o : JObj, from_url (to_url s) = some (.obj o) → to_url o = to_url s) := by
  have hascii := jdump_ascii _ hv
  have hqchars := pyQuote_chars _ hascii
  have main : from_url (to_url s) = some (JValue.obj s) := by
    rw [to_url, from_url]
    have hstrip : pyStrip (NEURO_BASE ++ '#' :: '!' :: pyQuote (jdump (.obj s)))
        = NEURO_BASE ++ '#' :: '!' :: pyQuote (jdump (.obj s)) := by
      apply pyStrip_eq_self
      intro c hc
      rw [List.mem_append, List.mem_cons, List.mem_cons] at hc
      rcases hc with hc | rfl | rfl | hc
      · exact (NEURO_BASE_chars c hc).1
      · decide
      · decide
      · exact (hqchars c hc).2.1
    rw [hstrip]
    have hcontains : strContains (NEURO_BASE ++ '#' :: '!' :: pyQuote (jdump (.obj s)))
        (lit "#") = true :=
      (strContains_char '#' _).mpr (List.mem_append.mpr (Or.inr (List.mem_cons_self _ _)))
    rw [fragmentOf, if_pos hcontains,
      splitAfterFirst_append '#' NEURO_BASE _ (fun c hc => (NEURO_BASE_chars c hc).2)]
    rw [dropBang, if_pos (show startsWith (lit "!")
        ('!' :: pyQuote (jdump (.obj s))) = true by simp [startsWith, lit, List.isPrefixOf])]
    rw [show ('!' :: pyQuote (jdump (.obj s))).drop 1 = pyQuote (jdump (.obj s)) from rfl]
    rw [fromFragment, unquote_pyQuote _ hascii]
    have hne : (jdump (JValue.obj s)).isEmpty = false := by
      rw [show jdump (JValue.obj s) = '\x7b' :: (jdumpObj s ++ ['\x7d']) from rfl]
      rfl
    rw [if_neg (by rw [hne]; exact Bool.false_ne_true)]
    rw [json_loads_jdump _ hv]
  refine ⟨main, ?_, ?_⟩
  · intro d hd
    exact ⟨s, main, hd⟩
  · intro o ho
    rw [main] at ho
    obtain rfl : s = o := JValue.obj.inj (Option.some.inj ho)
    rfl

/-- A concrete valid four-dimension state (`x, y, z, t`). -/
def c1dimEntry : JValue :=
  .arr (.cons (.num (lit "1e-9")) (.cons (.str (lit "m")) .nil))

def c1state : JObj :=
  .cons (lit "dimensions") (.obj (
      .cons (lit "x") c1dimEntry (
      .cons (lit "y") c1dimEntry (
      .cons (lit "z") c1dimEntry (
      .cons (lit "t") c1dimEntry .nil))))) (
  .cons (lit "position") (.arr (JArr.ofList
      [.num (lit "0"), .num (lit "0"), .num (lit "0"), .num (lit "0")])) (
  .cons (lit "crossSectionScale") (.num (lit "1.0")) (
  .cons (lit "layers") (.arr .nil) (
  .cons (lit "layout") (.str (lit "xy")) .nil))))

/-- Witness: C1 instantiated at a concrete 4-dimensional state. -/
theorem c1_roundtrip_witness :
    jvalid (JValue.obj c1state) = true ∧
    from_url (to_url c1state) = some (JValue.obj c1state) :=
  ⟨by decide, (c1_roundtrip c1state (by decide)).1⟩

/-! ## State mutators (`NeuroglancerState`, `neuroglancer_state.py` 39-133)

States are the `JObj` dicts of the JSON model.  `Option` models a raised
exception (`none`).  The embeddings follow the source line by line; layers
that are not dicts make the Python loops raise before doing anything, which
the claims' validity hypotheses (spec: layers are objects, unique by name)
exclude, so `layerNamed` may return `false` there. -/

def ALLOWED_LAYER_TYPES : List Str := [lit "image", lit "segmentation", lit "annotation"]

inductive SourceArg where
  | none
  | str (s : Str)
  | obj (o : JObj)
deriving DecidableEq

/-- `d.pop(k)`'s removal (keys are unique in a dict). -/
def JObj.erase : JObj → Str → JObj
  | .nil, _ => .nil
  | .cons k v r, key => if k = key then r else .cons k v (JObj.erase r key)

/-- `kwargs.pop(k, dflt)`: the value (or default) and the remaining dict. -/
def popKw (kw : JObj) (k : Str) (dflt : JValue) : JValue × JObj :=
  match kw.get? k with
  | some v => (v, kw.erase k)
  | none => (dflt, kw)

/-- Python falsiness of a JSON value (`if not color:`). -/
def jfalsy : JValue → Bool
  | .null => true
  | .bool b => !b
  | .str s => s.isEmpty
  | .num l => l == lit "0" || l == lit "0.0" || l == lit "-0.0"
  | .arr a => a.toList.isEmpty
  | .obj o => o.toList.isEmpty

/-- `for k, v in kwargs.items(): layer[k] = v` (insertion order). -/
def foldSet (base : JObj) : JObj → JObj
  | .nil => base
  | .cons k v r => foldSet (base.set k v) r

/-- `self.data.get("layers", [])` as a list of layer values. -/
def layersList (d : JObj) : List JValue :=
  match jget d (lit "layers") (.arr .nil) with
  | .arr a => a.toList
  | _ => []

/-- `L.get("name") == name`. -/
def layerNamed (nm : Str) (L : JValue) : Bool :=
  match L with
  | .obj o => o.get? (lit "name") == some (JValue.str nm)
  | _ => false

/-- The annotation-layer dict `add_layer` builds (source lines 73-92). -/
def annotationLayerFor (name : Str) (source : SourceArg) (kwargs : JObj) : JObj :=
  let src : JValue :=
    match source with
    | .none => .obj (.cons (lit "url") (.str (lit "local://annotations")) .nil)
    | .str s => .obj (.cons (lit "url") (.str s) .nil)
    | .obj o => .obj o
  let p1 := popKw kwargs (lit "annotation_color") .null
  let p2 := popKw p1.2 (lit "annotationColor") p1.1
  let color := if jfalsy p2.1 then JValue.str (lit "#cecd11") else p2.1
  let p3 := popKw p2.2 (lit "tool") (.str (lit "annotatePoint"))
  let p4 := popKw p3.2 (lit "tab") (.str (lit "annotations"))
  foldSet (
    .cons (lit "type") (.str (lit "annotation")) (
    .cons (lit "source") src (
    .cons (lit "tool") p3.1 (
    .cons (lit "tab") p4.1 (
    .cons (lit "annotationColor") color (
    .cons (lit "annotations") (.arr .nil) (
    .cons (lit "name") (.str name) .nil))))))) p4.2

/-- The image/segmentation layer dict (source lines 95-104). -/
def plainLayerFor (name layer_type : Str) (source : SourceArg) (kwargs : JObj) : JObj :=
  let src : JValue :=
    match source with
    | .none => .str (lit "precomputed://example")
    | .str s => .str s
    | .obj o => .obj o
  let p := popKw kwargs (lit "visible") (.bool true)
  foldSet (
    .cons (lit "type") (.str layer_type) (
    .cons (lit "name") (.str name) (
    .cons (lit "source") src (
    .cons (lit "visible") p.1 .nil)))) p.2

/-- `NeuroglancerState.add_layer` (source lines 66-109).  `none` models the
`ValueError` on an unsupported type and the `AttributeError`/`TypeError`
when `"layers"` holds a non-list. -/
def add_layer (d : JObj) (name layer_type : Str) (source : SourceArg)
    (kwargs : JObj) : Option JObj :=
  if ALLOWED_LAYER_TYPES.contains layer_type = false then none
  else if (layersList d).any (fun L => layerNamed name L) then some d
  else
    match jget d (lit "layers") (.arr .nil) with
    | .arr a =>
      some (d.set (lit "layers") (.arr (JArr.ofList (a.toList
        ++ [.obj (if layer_type = lit "annotation"
                  then annotationLayerFor name source kwargs
                  else plainLayerFor name layer_type source kwargs)]))))
    | _ => none

/-- `zoom: Union[Literal["fit"], float]`; a float is carried as its
JSON literal. -/
inductive ZoomArg where
  | fit
  | num (l : Str)

/-- The new `position` value (source lines 40-44). -/
def newPosition (old : JValue) (cx cy cz : JValue) : JValue :=
  match old with
  | .arr a =>
    if a.toList.length = 4 then .arr (JArr.ofList [cx, cy, cz, a.toList.getD 3 .null])
    else .arr (JArr.ofList [cx, cy, cz])
  | _ => .arr (JArr.ofList [cx, cy, cz])

def setPosD (d : JObj) (cx cy cz : JValue) : JObj :=
  d.set (lit "position") (newPosition (jget d (lit "position") (.arr .nil)) cx cy cz)

/-- `NeuroglancerState.set_view` (source lines 39-55): note `layout` is only
written in the non-`"fit"` branch, and an empty `orientation` is falsy. -/
def set_view (d : JObj) (cx cy cz : JValue) (zoom : ZoomArg) (ori : Str) : JObj :=
  match zoom with
  | .fit => (setPosD d cx cy cz).set (lit "crossSectionScale") (.num (lit "1.0"))
  | .num l =>
    if ori.isEmpty then (setPosD d cx cy cz).set (lit "crossSectionScale") (.num l)
    else ((setPosD d cx cy cz).set (lit "crossSectionScale") (.num l)).set
      (lit "layout") (.str ori)

/-- `L.get("type") == "annotation" and L.get("name") == layer`. -/
def isAnnLayerNamed (nm : Str) (L : JValue) : Bool :=
  match L with
  | .obj o => o.get? (lit "type") == some (JValue.str (lit "annotation"))
      && o.get? (lit "name") == some (JValue.str nm)
  | _ => false

/-- `ann.setdefault("annotations", []).extend(items)` on one layer;
`none` models the `AttributeError` when the entry is not a list (or the
layer is not a dict). -/
def extendAnn? (items : List JValue) (L : JValue) : Option JValue :=
  match L with
  | .obj o =>
    match o.get? (lit "annotations") with
    | some (.arr a) =>
      some (.obj (o.set (lit "annotations") (.arr (JArr.ofList (a.toList ++ items)))))
    | some _ => Option.none
    | none => some (.obj (o.set (lit "annotations") (.arr (JArr.ofList items))))
  | _ => Option.none

/-- Replace the first element satisfying `p` by `f` of it (`next(...)` plus
in-place mutation through the alias); `none` when nothing matches
(`StopIteration`) or `f` fails. -/
def updateFirst? (p : JValue → Bool) (f : JValue → Option JValue) :
    List JValue → Option (List JValue)
  | [] => Option.none
  | L :: r => if p L then (f L).map (· :: r)
      else (updateFirst? p f r).map (L :: ·)

def extendInLayers (d : JObj) (L : Str) (items : List JValue) : Option JObj :=
  match jget d (lit "layers") (.arr .nil) with
  | .arr a =>
    (updateFirst? (fun v => isAnnLayerNamed L v) (fun v => extendAnn? items v)
        a.toList).map
      (fun ls => d.set (lit "layers") (.arr (JArr.ofList ls)))
  | _ => Option.none

/-- `NeuroglancerState.add_annotations` (source lines 118-133):  find an
annotation layer of that name; otherwise `add_layer(layer, "annotation")`
and re-run the same `next(...)` with no default, so a state in which the
name is taken by a non-annotation layer raises `StopIteration` (`none`). -/
def add_annotations (d : JObj) (L : Str) (items : List JValue) : Option JObj :=
  if (layersList d).any (fun v => isAnnLayerNamed L v) then extendInLayers d L items
  else
    match add_layer d L (lit "annotation") .none .nil with
    | some d1 =>
      if (layersList d1).any (fun v => isAnnLayerNamed L v) then extendInLayers d1 L items
      else Option.none
    | none => Option.none

lemma JObj.get?_set_self : ∀ (d : JObj) (k : Str) (v : JValue),
    (d.set k v).get? k = some v
  | .nil, k, v => by rw [JObj.set, JObj.get?, if_pos rfl]
  | .cons k2 v2 r, k, v => by
    rw [JObj.set]
    by_cases h : k2 = k
    · rw [if_pos h, JObj.get?, if_pos h]
    · rw [if_neg h, JObj.get?, if_neg h]
      exact JObj.get?_set_self r k v

lemma JObj.get?_set_ne : ∀ (d : JObj) (k k2 : Str) (v : JValue), k ≠ k2 →
    (d.set k v).get? k2 = d.get? k2
  | .nil, k, k2, v, h => by
    rw [JObj.set]
    simp [JObj.get?, h]
  | .cons ka va r, k, k2, v, h => by
    rw [JObj.set]
    by_cases hk : ka = k
    · subst hk
      rw [if_pos rfl, JObj.get?, JObj.get?, if_neg h, if_neg h]
    · rw [if_neg hk, JObj.get?, JObj.get?]
      by_cases h2 : ka = k2
      · rw [if_pos h2, if_pos h2]
      · rw [if_neg h2, if_neg h2]
        exact JObj.get?_set_ne r k k2 v h

lemma JObj.get?_erase_none : ∀ (d : JObj) (k key : Str), d.get? key = none →
    (JObj.erase d k).get? key = none
  | .nil, _, _, _ => rfl
  | .cons ka va r, k, key, h => by
    have hka : ¬(ka = key) := by
      intro he
      rw [JObj.get?, if_pos he] at h
      exact Option.noConfusion h
    have hr : r.get? key = none := by
      rw [JObj.get?, if_neg hka] at h
      exact h
    rw [JObj.erase]
    by_cases hk : ka = k
    · rw [if_pos hk]
      exact hr
    · rw [if_neg hk, JObj.get?, if_neg hka]
      exact JObj.get?_erase_none r k key hr

lemma popKw_snd_get?_none (kw : JObj) (k key : Str) (dflt : JValue)
    (h : kw.get? key = none) : (popKw kw k dflt).2.get? key = none := by
  rw [popKw]
  cases hg : kw.get? k with
  | none => exact h
  | some v => exact JObj.get?_erase_none kw k key h

lemma get?_foldSet_none : ∀ (kw : JObj) (base : JObj) (key : Str),
    kw.get? key = none → (foldSet base kw).get? key = base.get? key
  | .nil, _, _, _ => rfl
  | .cons k v r, base, key, h => by
    have hk : ¬(k = key) := by
      intro he
      rw [JObj.get?, if_pos he] at h
      exact Option.noConfusion h
    have hr : r.get? key = none := by
      rw [JObj.get?, if_neg hk] at h
      exact h
    rw [foldSet, get?_foldSet_none r (base.set k v) key hr,
      JObj.get?_set_ne base k key v hk]

lemma JArr.toList_ofList : ∀ (l : List JValue), (JArr.ofList l).toList = l
  | [] => rfl
  | v :: r => by rw [JArr.ofList, JArr.toList, JArr.toList_ofList r]

lemma list_len4 {α : Type} (l : List α) (h : l.length = 4) :
    ∃ a b c d, l = [a, b, c, d] := by
  cases l with
  | nil => simp at h
  | cons a t =>
    cases t with
    | nil => simp at h
    | cons b t2 =>
      cases t2 with
      | nil => simp at h
      | cons c t3 =>
        cases t3 with
        | nil => simp at h
        | cons d t4 =>
          cases t4 with
          | nil => exact ⟨a, b, c, d, rfl⟩
          | cons e t5 =>
            exact absurd h (by simp only [List.length_cons]; omega)

lemma set_view_get?_position (d : JObj) (cx cy cz : JValue) (z : ZoomArg) (o : Str) :
    (set_view d cx cy cz z o).get? (lit "position")
      = some (newPosition (jget d (lit "position") (.arr .nil)) cx cy cz) := by
  cases z with
  | fit =>
    rw [set_view, JObj.get?_set_ne _ _ _ _ (by decide), setPosD, JObj.get?_set_self]
  | num l =>
    rw [set_view]
    cases he : o.isEmpty with
    | true =>
      rw [if_pos rfl, JObj.get?_set_ne _ _ _ _ (by decide), setPosD, JObj.get?_set_self]
    | false =>
      rw [if_neg Bool.false_ne_true, JObj.get?_set_ne _ _ _ _ (by decide),
        JObj.get?_set_ne _ _ _ _ (by decide), setPosD, JObj.get?_set_self]

/-- C3 (amended): `set_view` keeps a trailing entry only for positions of
length exactly 4; any other list position is replaced by the 3 center
coordinates.  `zoom == "fit"` sets `crossSectionScale` to `1.0` and leaves
`layout` untouched even when an orientation is given; a float zoom sets
`crossSectionScale` to it, and then a non-empty orientation sets `layout`. -/
theorem c3_set_view_amended (d : JObj) (cx cy cz : JValue) (zoom : ZoomArg) (ori : Str) :
    (∀ a : JArr, jget d (lit "position") (.arr .nil) = .arr a →
      (a.toList.length = 4 →
        (set_view d cx cy cz zoom ori).get? (lit "position")
          = some (.arr (JArr.ofList (cx :: cy :: cz :: a.toList.drop 3)))) ∧
      (a.toList.length ≠ 4 →
        (set_view d cx cy cz zoom ori).get? (lit "position")
          = some (.arr (JArr.ofList [cx, cy, cz])))) ∧
    ((set_view d cx cy cz ZoomArg.fit ori).get? (lit "crossSectionScale")
        = some (.num (lit "1.0")) ∧
      (set_view d cx cy cz ZoomArg.fit ori).get? (lit "layout") = d.get? (lit "layout")) ∧
    (∀ l : Str, ori ≠ [] →
      (set_view d cx cy cz (ZoomArg.num l) ori).get? (lit "crossSectionScale")
          = some (.num l) ∧
      (set_view d cx cy cz (ZoomArg.num l) ori).get? (lit "layout")
          = some (.str ori)) := by
  refine ⟨?_, ⟨?_, ?_⟩, ?_⟩
  · intro a ha
    constructor
    · intro h4
      rw [set_view_get?_position, ha, newPosition, if_pos h4]
      obtain ⟨w, x, y, z4, hl⟩ := list_len4 a.toList h4
      rw [hl]
      rfl
    · intro h4
      rw [set_view_get?_position, ha, newPosition, if_neg h4]
  · rw [set_view, JObj.get?_set_self]
  · rw [set_view, JObj.get?_set_ne _ _ _ _ (by decide), setPosD,
      JObj.get?_set_ne _ _ _ _ (by decide)]
  · intro l hne
    have he : ori.isEmpty = false := by
      cases ori with
      | nil => exact absurd rfl hne
      | cons c t => rfl
    constructor
    · rw [set_view, if_neg (by rw [he]; exact Bool.false_ne_true),
        JObj.get?_set_ne _ _ _ _ (by decide), JObj.get?_set_self]
    · rw [set_view, if_neg (by rw [he]; exact Bool.false_ne_true), JObj.get?_set_self]

/-- A state with a 5-entry position and an existing layout. -/
def c3state : JObj :=
  .cons (lit "position") (.arr (JArr.ofList
    [.num (lit "1"), .num (lit "2"), .num (lit "3"), .num (lit "4"), .num (lit "5")]))
    (.cons (lit "layout") (.str (lit "xy")) .nil)

/-- C3 counterexample: with a 5-entry position the trailing entries are NOT
preserved (the result has length 3, spec says length stays n); and with
`zoom == "fit"` a given orientation `"yz"` does NOT update `layout`. -/
theorem c3_counterexample :
    (set_view c3state (.num (lit "9")) (.num (lit "9")) (.num (lit "9"))
        (ZoomArg.num (lit "2.0")) []).get? (lit "position")
      = some (.arr (JArr.ofList [.num (lit "9"), .num (lit "9"), .num (lit "9")])) ∧
    (set_view c3state (.num (lit "9")) (.num (lit "9")) (.num (lit "9"))
        ZoomArg.fit (lit "yz")).get? (lit "layout") = some (.str (lit "xy")) :=
  ⟨by decide, by decide⟩

def c3warr : JArr := JArr.ofList
  [.num (lit "1"), .num (lit "2"), .num (lit "3"), .num (lit "4")]

def c3wstate : JObj := .cons (lit "position") (.arr c3warr) .nil

/-- Witness: the amended C3 at a length-4 position, float zoom and
orientation `"yz"`. -/
theorem c3_set_view_amended_witness :
    (set_view c3wstate (.num (lit "9")) (.num (lit "8")) (.num (lit "7"))
        (ZoomArg.num (lit "2.0")) (lit "yz")).get? (lit "position")
      = some (.arr (JArr.ofList [.num (lit "9"), .num (lit "8"), .num (lit "7"),
          .num (lit "4")])) ∧
    (set_view c3wstate (.num (lit "9")) (.num (lit "8")) (.num (lit "7"))
        (ZoomArg.num (lit "2.0")) (lit "yz")).get? (lit "layout")
      = some (.str (lit "yz")) := by
  have h := c3_set_view_amended c3wstate (.num (lit "9")) (.num (lit "8"))
    (.num (lit "7")) (ZoomArg.num (lit "2.0")) (lit "yz")
  refine ⟨?_, (h.2.2 (lit "2.0") (by decide)).2⟩
  have h1 := (h.1 c3warr (by rfl)).1 (by rfl)
  rw [h1]
  rfl

lemma annotationLayerFor_get?_name (name : Str) (src : SourceArg) (kw : JObj)
    (h : kw.get? (lit "name") = none) :
    (annotationLayerFor name src kw).get? (lit "name") = some (.str name) := by
  have h1 := popKw_snd_get?_none kw (lit "annotation_color") (lit "name") JValue.null h
  have h2 := popKw_snd_get?_none _ (lit "annotationColor") (lit "name")
    (popKw kw (lit "annotation_color") JValue.null).1 h1
  have h3 := popKw_snd_get?_none _ (lit "tool") (lit "name")
    (JValue.str (lit "annotatePoint")) h2
  have h4 := popKw_snd_get?_none _ (lit "tab") (lit "name")
    (JValue.str (lit "annotations")) h3
  simp only [annotationLayerFor]
  rw [get?_foldSet_none _ _ _ h4]
  rfl

lemma plainLayerFor_get?_name (name T : Str) (src : SourceArg) (kw : JObj)
    (h : kw.get? (lit "name") = none) :
    (plainLayerFor name T src kw).get? (lit "name") = some (.str name) := by
  have h1 := popKw_snd_get?_none kw (lit "visible") (lit "name") (JValue.bool true) h
  simp only [plainLayerFor]
  rw [get?_foldSet_none _ _ _ h1]
  rfl

lemma newLayer_named (L T : Str) (src : SourceArg) (kw : JObj)
    (hname : kw.get? (lit "name") = none) :
    layerNamed L (.obj (if T = lit "annotation" then annotationLayerFor L src kw
      else plainLayerFor L T src kw)) = true := by
  by_cases hT : T = lit "annotation"
  · rw [if_pos hT, layerNamed, annotationLayerFor_get?_name L src kw hname]
    simp
  · rw [if_neg hT, layerNamed, plainLayerFor_get?_name L T src kw hname]
    simp

/-- C4: `add_layer` is idempotent on the layer name: whenever a first call
succeeds, repeating the identical call returns the state of the first call
unchanged, and that state has exactly one layer named `L`.  Hypotheses:
`kw` cannot bind `"name"` (the Python signature reserves it as a positional
parameter), and the input satisfies the spec's layers-unique-by-name
invariant (at most one layer named `L`). -/
theorem c4_add_layer_idempotent (d : JObj) (L T : Str) (src : SourceArg) (kw : JObj)
    (hname : kw.get? (lit "name") = none)
    (huniq : (layersList d).countP (fun v => layerNamed L v) ≤ 1) :
    ∀ d1, add_layer d L T src kw = some d1 →
      add_layer d1 L T src kw = some d1 ∧
      (layersList d1).countP (fun v => layerNamed L v) = 1 := by
  intro d1 h
  rw [add_layer] at h
  cases hT : ALLOWED_LAYER_TYPES.contains T with
  | false =>
    rw [if_pos hT] at h
    exact Option.noConfusion h
  | true =>
    rw [if_neg (by rw [hT]; exact fun hc => Bool.noConfusion hc)] at h
    cases hany : (layersList d).any (fun v => layerNamed L v) with
    | true =>
      rw [if_pos hany] at h
      obtain rfl : d = d1 := Option.some.inj h
      refine ⟨?_, ?_⟩
      · rw [add_layer, if_neg (by rw [hT]; exact fun hc => Bool.noConfusion hc),
          if_pos hany]
      · have hpos : 0 < (layersList d).countP (fun v => layerNamed L v) := by
          rw [List.countP_pos]
          obtain ⟨x, hx, hp⟩ := List.any_eq_true.mp hany
          exact ⟨x, hx, hp⟩
        omega
    | false =>
      rw [if_neg (by rw [hany]; exact Bool.false_ne_true)] at h
      cases hj : jget d (lit "layers") (.arr .nil) with
      | null => rw [hj] at h; exact Option.noConfusion h
      | bool b => rw [hj] at h; exact Option.noConfusion h
      | num l => rw [hj] at h; exact Option.noConfusion h
      | str s => rw [hj] at h; exact Option.noConfusion h
      | obj o => rw [hj] at h; exact Option.noConfusion h
      | arr a =>
        rw [hj] at h
        have hd1 : d1 = d.set (lit "layers") (.arr (JArr.ofList (a.toList
            ++ [.obj (if T = lit "annotation" then annotationLayerFor L src kw
                      else plainLayerFor L T src kw)]))) := (Option.some.inj h).symm
        subst hd1
        have hj1 : jget (d.set (lit "layers") (.arr (JArr.ofList (a.toList
            ++ [.obj (if T = lit "annotation" then annotationLayerFor L src kw
                      else plainLayerFor L T src kw)]))))
            (lit "layers") (.arr .nil)
            = .arr (JArr.ofList (a.toList
              ++ [.obj (if T = lit "annotation" then annotationLayerFor L src kw
                        else plainLayerFor L T src kw)])) := by
          rw [jget, JObj.get?_set_self]
          rfl
        have hll : layersList (d.set (lit "layers") (.arr (JArr.ofList (a.toList
            ++ [.obj (if T = lit "annotation" then annotationLayerFor L src kw
                      else plainLayerFor L T src kw)]))))
            = a.toList
              ++ [.obj (if T = lit "annotation" then annotationLayerFor L src kw
                        else plainLayerFor L T src kw)] := by
          rw [layersList, hj1]
          exact JArr.toList_ofList _
        have hnew := newLayer_named L T src kw hname
        refine ⟨?_, ?_⟩
        · rw [add_layer, if_neg (by rw [hT]; exact fun hc => Bool.noConfusion hc)]
          have hany1 : (layersList (d.set (lit "layers") (.arr (JArr.ofList (a.toList
              ++ [.obj (if T = lit "annotation" then annotationLayerFor L src kw
                        else plainLayerFor L T src kw)]))))).any
              (fun v => layerNamed L v) = true := by
            rw [hll, List.any_append]
            rw [Bool.or_eq_true]
            right
            rw [List.any_cons]
            rw [Bool.or_eq_true]
            left
            exact hnew
          rw [if_pos hany1]
        · rw [hll, List.countP_append]
          have h0 : a.toList.countP (fun v => layerNamed L v) = 0 := by
            rw [List.countP_eq_zero]
            have hld : layersList d = a.toList := by rw [layersList, hj]
            rw [hld] at hany
            exact fun x hx => by
              have := List.any_eq_false.mp hany x hx
              simpa using this
          rw [h0, List.countP_cons]
          simp [hnew]
  
def c4d1 : JObj :=
  (add_layer .nil (lit "L") (lit "annotation") SourceArg.none .nil).getD .nil

/-- Witness: C4 instantiated at the empty state, an annotation layer
`"L"`, no source and no keyword arguments. -/
theorem c4_add_layer_idempotent_witness :
    add_layer c4d1 (lit "L") (lit "annotation") SourceArg.none .nil = some c4d1 ∧
    (layersList c4d1).countP (fun v => layerNamed (lit "L") v) = 1 :=
  c4_add_layer_idempotent JObj.nil (lit "L") (lit "annotation") SourceArg.none .nil
    rfl (by decide) c4d1 (by decide)

lemma isAnn_imp_named (nm : Str) (v : JValue) (h : isAnnLayerNamed nm v = true) :
    layerNamed nm v = true := by
  cases v with
  | obj o =>
    rw [isAnnLayerNamed] at h
    rw [layerNamed]
    exact (Bool.and_eq_true _ _ ▸ h).2
  | null => exact Bool.noConfusion h
  | bool b => exact Bool.noConfusion h
  | num l => exact Bool.noConfusion h
  | str s => exact Bool.noConfusion h
  | arr a => exact Bool.noConfusion h

lemma two_le_countP (p : JValue → Bool) : ∀ (l : List JValue) (x y : JValue),
    x ∈ l → y ∈ l → x ≠ y → p x = true → p y = true → 2 ≤ l.countP p := by
  intro l
  induction l with
  | nil => intro x y hx _ _ _ _; exact absurd hx (List.not_mem_nil _)
  | cons a t ih =>
    intro x y hx hy hne hpx hpy
    rw [List.countP_cons]
    rcases List.mem_cons.mp hx with rfl | hx2
    · rcases List.mem_cons.mp hy with rfl | hy2
      · exact absurd rfl hne
      · have h1 : 0 < t.countP p := List.countP_pos_iff.mpr ⟨y, hy2, hpy⟩
        rw [if_pos hpx]
        omega
    · rcases List.mem_cons.mp hy with rfl | hy2
      · have h1 : 0 < t.countP p := List.countP_pos_iff.mpr ⟨x, hx2, hpx⟩
        rw [if_pos hpy]
        omega
      · have h2 := ih x y hx2 hy2 hne hpx hpy
        omega

lemma updateFirst?_isSome (p : JValue → Bool) (f : JValue → Option JValue) :
    ∀ (l : List JValue), (∃ x ∈ l, p x = true) →
      (∀ x ∈ l, p x = true → (f x).isSome = true) →
      (updateFirst? p f l).isSome = true := by
  intro l
  induction l with
  | nil =>
    intro he _
    obtain ⟨x, hx, _⟩ := he
    exact absurd hx (List.not_mem_nil _)
  | cons a t ih =>
    intro he hf
    rw [updateFirst?]
    cases hpa : p a with
    | true =>
      rw [if_pos rfl]
      have hsome := hf a (List.mem_cons_self _ _) hpa
      cases hfa : f a with
      | some v => rfl
      | none => rw [hfa] at hsome; exact Bool.noConfusion hsome
    | false =>
      rw [if_neg Bool.false_ne_true]
      obtain ⟨x, hx, hpx⟩ := he
      rcases List.mem_cons.mp hx with rfl | hx2
      · rw [hpa] at hpx
        exact Bool.noConfusion hpx
      · have ht := ih ⟨x, hx2, hpx⟩ (fun y hy hpy => hf y (List.mem_cons_of_mem _ hy) hpy)
        cases hu : updateFirst? p f t with
        | some ls => rfl
        | none => rw [hu] at ht; exact Bool.noConfusion ht

/-- A layer's `annotations` entry is absent or a list — what
`.setdefault("annotations", []).extend(...)` needs to not raise. -/
def annOk (o : JObj) : Bool :=
  match o.get? (lit "annotations") with
  | some (.arr _) => true
  | some _ => false
  | Option.none => true

lemma extendAnn?_isSome_of_annOk (items : List JValue) (o : JObj)
    (h : annOk o = true) : (extendAnn? items (.obj o)).isSome = true := by
  rw [extendAnn?]
  rw [annOk] at h
  cases hg : o.get? (lit "annotations") with
  | none => rfl
  | some v =>
    rw [hg] at h
    cases v with
    | arr a => rfl
    | null => exact Bool.noConfusion h
    | bool b => exact Bool.noConfusion h
    | num l => exact Bool.noConfusion h
    | str s => exact Bool.noConfusion h
    | obj o2 => exact Bool.noConfusion h

lemma annLayer_isAnn (L : Str) :
    isAnnLayerNamed L (.obj (annotationLayerFor L SourceArg.none .nil)) = true := by
  rw [isAnnLayerNamed]
  rw [show (annotationLayerFor L SourceArg.none .nil).get? (lit "type")
      = some (.str (lit "annotation")) from rfl]
  rw [show (annotationLayerFor L SourceArg.none .nil).get? (lit "name")
      = some (.str L) from rfl]
  simp

/-- C10: on a state satisfying the spec's layer validity (the `layers`
entry is a list of dicts, unique by name, annotation arrays list-shaped):
if a layer named `L` exists whose type is not `"annotation"`,
`add_annotations` raises (`none`, the re-run `next(...)` finds nothing
because `add_layer` was a no-op) and no items are appended anywhere; and if
every layer named `L` has type `"annotation"` (in particular if the name is
free), `add_annotations` never raises. -/
theorem c10_add_annotations (d : JObj) (L : Str) (items : List JValue)
    (hlist : ∃ a : JArr, jget d (lit "layers") (.arr .nil) = .arr a)
    (hobj : ∀ v ∈ layersList d, ∃ o : JObj, v = .obj o)
    (huniq : (layersList d).countP (fun v => layerNamed L v) ≤ 1)
    (hann : ∀ o : JObj, JValue.obj o ∈ layersList d →
      isAnnLayerNamed L (.obj o) = true → annOk o = true) :
    ((∃ o : JObj, JValue.obj o ∈ layersList d ∧ layerNamed L (.obj o) = true ∧
        o.get? (lit "type") ≠ some (.str (lit "annotation"))) →
      add_annotations d L items = Option.none) ∧
    ((∀ o : JObj, JValue.obj o ∈ layersList d → layerNamed L (.obj o) = true →
        o.get? (lit "type") = some (.str (lit "annotation"))) →
      (add_annotations d L items).isSome = true) := by
  obtain ⟨a0, hj0⟩ := hlist
  have hld : layersList d = a0.toList := by rw [layersList, hj0]
  constructor
  · rintro ⟨o, homem, honamed, hotype⟩
    have hfound : (layersList d).any (fun v => isAnnLayerNamed L v) = false := by
      cases hf : (layersList d).any (fun v => isAnnLayerNamed L v) with
      | false => rfl
      | true =>
        exfalso
        obtain ⟨y, hy, hpy⟩ := List.any_eq_true.mp hf
        have hyn : layerNamed L y = true := isAnn_imp_named L y hpy
        by_cases hye : y = JValue.obj o
        · subst hye
          rw [isAnnLayerNamed] at hpy
          have h1 := (Bool.and_eq_true _ _ ▸ hpy).1
          rw [beq_iff_eq] at h1
          exact hotype h1
        · have h2 := two_le_countP (fun v => layerNamed L v) (layersList d) y
            (JValue.obj o) hy homem hye hyn honamed
          omega
    rw [add_annotations, if_neg (by rw [hfound]; exact Bool.false_ne_true)]
    have hidem : add_layer d L (lit "annotation") SourceArg.none .nil = some d := by
      rw [add_layer, if_neg (by decide),
        if_pos (List.any_eq_true.mpr ⟨JValue.obj o, homem, honamed⟩)]
    rw [hidem]
    have hred : (if ((layersList d).any fun v => isAnnLayerNamed L v) = true
        then extendInLayers d L items else Option.none) = Option.none := by
      rw [if_neg (by rw [hfound]; exact Bool.false_ne_true)]
    exact hred
  · intro htype
    rw [add_annotations]
    cases hfound : (layersList d).any (fun v => isAnnLayerNamed L v) with
    | true =>
      rw [if_pos rfl]
      rw [extendInLayers, hj0]
      show (Option.map (fun ls => d.set (lit "layers") (.arr (JArr.ofList ls)))
        (updateFirst? (fun v => isAnnLayerNamed L v)
          (fun v => extendAnn? items v) a0.toList)).isSome = true
      have hsome : (updateFirst? (fun v => isAnnLayerNamed L v)
          (fun v => extendAnn? items v) a0.toList).isSome = true := by
        apply updateFirst?_isSome
        · exact List.any_eq_true.mp (hld ▸ hfound)
        · intro x hx hpx
          cases x with
          | obj o2 =>
            exact extendAnn?_isSome_of_annOk items o2
              (hann o2 (by rw [hld]; exact hx) hpx)
          | null => exact Bool.noConfusion hpx
          | bool b => exact Bool.noConfusion hpx
          | num l => exact Bool.noConfusion hpx
          | str s => exact Bool.noConfusion hpx
          | arr a => exact Bool.noConfusion hpx
      cases hu : updateFirst? (fun v => isAnnLayerNamed L v)
          (fun v => extendAnn? items v) a0.toList with
      | some ls => rfl
      | none => rw [hu] at hsome; exact Bool.noConfusion hsome
    | false =>
      rw [if_neg Bool.false_ne_true]
      have hnamedF : (layersList d).any (fun v => layerNamed L v) = false := by
        cases hnf : (layersList d).any (fun v => layerNamed L v) with
        | false => rfl
        | true =>
          exfalso
          obtain ⟨y, hy, hpy⟩ := List.any_eq_true.mp hnf
          cases y with
          | obj o2 =>
            have ht2 := htype o2 hy hpy
            have hpa : isAnnLayerNamed L (.obj o2) = true := by
              rw [isAnnLayerNamed, Bool.and_eq_true]
              rw [layerNamed] at hpy
              exact ⟨by rw [beq_iff_eq]; exact ht2, hpy⟩
            have hcontra := List.any_eq_true.mpr ⟨JValue.obj o2, hy, hpa⟩
            rw [hfound] at hcontra
            exact Bool.noConfusion hcontra
          | null => exact Bool.noConfusion hpy
          | bool b => exact Bool.noConfusion hpy
          | num l => exact Bool.noConfusion hpy
          | str s => exact Bool.noConfusion hpy
          | arr a => exact Bool.noConfusion hpy
      have hadd : add_layer d L (lit "annotation") SourceArg.none .nil
          = some (d.set (lit "layers") (.arr (JArr.ofList (a0.toList
            ++ [.obj (annotationLayerFor L SourceArg.none .nil)])))) := by
        rw [add_layer, if_neg (by decide),
          if_neg (by rw [hnamedF]; exact Bool.false_ne_true), hj0]
        rfl
      rw [hadd]
      have hj1 : jget (d.set (lit "layers") (.arr (JArr.ofList (a0.toList
          ++ [.obj (annotationLayerFor L SourceArg.none .nil)]))))
          (lit "layers") (.arr .nil)
          = .arr (JArr.ofList (a0.toList
            ++ [.obj (annotationLayerFor L SourceArg.none .nil)])) := by
        rw [jget, JObj.get?_set_self]
        rfl
      have hll1 : layersList (d.set (lit "layers") (.arr (JArr.ofList (a0.toList
          ++ [.obj (annotationLayerFor L SourceArg.none .nil)]))))
          = a0.toList ++ [.obj (annotationLayerFor L SourceArg.none .nil)] := by
        rw [layersList, hj1]
        exact JArr.toList_ofList _
      have hany1 : (layersList (d.set (lit "layers") (.arr (JArr.ofList (a0.toList
          ++ [.obj (annotationLayerFor L SourceArg.none .nil)]))))).any
          (fun v => isAnnLayerNamed L v) = true := by
        rw [hll1, List.any_append, Bool.or_eq_true]
        right
        rw [List.any_cons, Bool.or_eq_true]
        left
        exact annLayer_isAnn L
      have hfin : (extendInLayers (d.set (lit "layers") (.arr (JArr.ofList (a0.toList
          ++ [.obj (annotationLayerFor L SourceArg.none .nil)])))) L items).isSome
          = true := by
        rw [extendInLayers, hj1]
        show (Option.map (fun ls => (d.set (lit "layers") (.arr (JArr.ofList (a0.toList
            ++ [.obj (annotationLayerFor L SourceArg.none .nil)])))).set
              (lit "layers") (.arr (JArr.ofList ls)))
          (updateFirst? (fun v => isAnnLayerNamed L v) (fun v => extendAnn? items v)
            ((JArr.ofList (a0.toList
              ++ [.obj (annotationLayerFor L SourceArg.none .nil)])).toList))).isSome = true
        have hsome : (updateFirst? (fun v => isAnnLayerNamed L v)
            (fun v => extendAnn? items v)
            ((JArr.ofList (a0.toList
              ++ [.obj (annotationLayerFor L SourceArg.none .nil)])).toList)).isSome
            = true := by
          rw [JArr.toList_ofList]
          apply updateFirst?_isSome
          · exact ⟨.obj (annotationLayerFor L SourceArg.none .nil),
              List.mem_append.mpr (Or.inr (List.mem_cons_self _ _)), annLayer_isAnn L⟩
          · intro x hx hpx
            rcases List.mem_append.mp hx with hx2 | hx2
            · exfalso
              have hmem : x ∈ layersList d := by rw [hld]; exact hx2
              have hcontra := List.any_eq_true.mpr ⟨x, hmem, hpx⟩
              rw [hfound] at hcontra
              exact Bool.noConfusion hcontra
            · have hx3 : x = .obj (annotationLayerFor L SourceArg.none .nil) := by
                simpa using hx2
              subst hx3
              rfl
        cases hu : updateFirst? (fun v => isAnnLayerNamed L v)
            (fun v => extendAnn? items v)
            ((JArr.ofList (a0.toList
              ++ [.obj (annotationLayerFor L SourceArg.none .nil)])).toList) with
        | some ls => rfl
        | none => rw [hu] at hsome; exact Bool.noConfusion hsome
      have hred : (if ((layersList (d.set (lit "layers") (.arr (JArr.ofList (a0.toList
          ++ [.obj (annotationLayerFor L SourceArg.none .nil)]))))).any
            fun v => isAnnLayerNamed L v) = true
          then extendInLayers (d.set (lit "layers") (.arr (JArr.ofList (a0.toList
            ++ [.obj (annotationLayerFor L SourceArg.none .nil)])))) L items
          else Option.none).isSome = true := by
        rw [if_pos hany1]
        exact hfin
      exact hred

/-- Witness: C10's never-raises half on the empty state (the annotation
layer is created on the fly). -/
theorem c10_add_annotations_witness :
    (add_annotations JObj.nil (lit "L") []).isSome = true :=
  (c10_add_annotations JObj.nil (lit "L") [] ⟨JArr.nil, rfl⟩
    (fun v h => absurd h (List.not_mem_nil _)) (by decide)
    (fun o h _ => absurd h (List.not_mem_nil _))).2
    (fun o h _ => absurd h (List.not_mem_nil _))

/-! ## Pointer detection (`pointer_expansion.py`, lines 28-31 and 226-247) -/

/-- `url.split('#!', 1)[1]` (the source tests `'#!' in url` first). -/
def splitAfterHashBang : Str → Str
  | [] => []
  | c :: t => if (lit "#!").isPrefixOf (c :: t) then t.drop 1 else splitAfterHashBang t

/-- `_is_probably_json`: stripped text starts with `\x7b` and ends with
`\x7d` — a brace heuristic, not a parse. -/
def is_probably_json (text : Str) : Bool :=
  (lit "\x7b").isPrefixOf (pyStrip text) && (lit "\x7d").isSuffixOf (pyStrip text)

/-- `is_pointer_url` (source lines 226-247). -/
def is_pointer_url (url : Str) : Bool :=
  if strContains url (lit "#!") = false then false
  else ! is_probably_json (unquote (splitAfterHashBang url))

lemma strContains_hashbang : ∀ (x y : Str),
    strContains (x ++ '#' :: '!' :: y) (lit "#!") = true := by
  intro x
  induction x with
  | nil =>
    intro y
    rw [List.nil_append, strContains, Bool.or_eq_true]
    left
    simp [lit, List.isPrefixOf]
  | cons c t ih =>
    intro y
    rw [List.cons_append, strContains, Bool.or_eq_true]
    right
    exact ih y

lemma splitAfterHashBang_append : ∀ (x y : Str), (∀ c ∈ x, (c == '#') = false) →
    splitAfterHashBang (x ++ '#' :: '!' :: y) = y := by
  intro x
  induction x with
  | nil =>
    intro y _
    rw [List.nil_append, splitAfterHashBang,
      if_pos (by simp [lit, List.isPrefixOf])]
    rfl
  | cons c t ih =>
    intro y hx
    rw [List.cons_append, splitAfterHashBang]
    have hc : ¬((lit "#!").isPrefixOf (c :: (t ++ '#' :: '!' :: y)) = true) := by
      intro hp
      simp only [lit, List.isPrefixOf, Bool.and_eq_true, beq_iff_eq] at hp
      have := hx c (List.mem_cons_self _ _)
      rw [hp.1] at this
      simp at this
    rw [if_neg hc]
    exact ih y (fun d hd => hx d (List.mem_cons_of_mem _ hd))

lemma pyStrip_eq_self_ends {c : Char} {t : Str} {d : Char}
    (h1 : isSpace c = false) (h2 : isSpace d = false) :
    pyStrip (c :: (t ++ [d])) = c :: (t ++ [d]) := by
  rw [pyStrip]
  have e1 : List.dropWhile (fun x => isSpace x) (c :: (t ++ [d])) = c :: (t ++ [d]) := by
    rw [List.dropWhile_cons, h1]
    simp
  rw [e1]
  have e2 : (c :: (t ++ [d])).reverse = d :: (t.reverse ++ [c]) := by
    simp
  rw [e2]
  have e3 : List.dropWhile (fun x => isSpace x) (d :: (t.reverse ++ [c]))
      = d :: (t.reverse ++ [c]) := by
    rw [List.dropWhile_cons, h2]
    simp
  rw [e3, ← e2, List.reverse_reverse]

lemma is_probably_json_jdump_obj (o : JObj) :
    is_probably_json (jdump (.obj o)) = true := by
  rw [is_probably_json,
    show jdump (JValue.obj o) = '\x7b' :: (jdumpObj o ++ ['\x7d']) from rfl,
    pyStrip_eq_self_ends (by decide) (by decide)]
  rw [Bool.and_eq_true]
  constructor
  · simp [lit, List.isPrefixOf]
  · rw [List.isSuffixOf]
    simp [lit]

/-- The url of the C8 counterexample: its fragment decodes to `\x7boops\x7d`,
which does not parse as JSON. -/
def c8url : Str := lit "https://host/#!%7Boops%7D"

/-- C8 counterexample: the decoded fragment fails JSON parsing, yet
`is_pointer_url` classifies the url as NOT a pointer (the brace heuristic
accepts it), contradicting "a decoded fragment that fails JSON parsing is
always classified as a pointer". -/
theorem c8_counterexample :
    json_loads (unquote (splitAfterHashBang c8url)) = Option.none ∧
    is_pointer_url c8url = false :=
  ⟨by decide, by decide⟩

/-- C8 (amended): `is_pointer_url` uses a brace heuristic on the stripped
decoded fragment, not JSON parseability; the direction that holds is that a
decoded fragment which IS a JSON object is never classified as a pointer —
in particular every inline URL the encoder produces: it contains `#!`, its
decoded fragment parses back to the state, and it is not a pointer. -/
theorem c8_is_pointer_url_amended (o : JObj) (hv : jvalid (.obj o) = true) :
    strContains (to_url o) (lit "#!") = true ∧
    json_loads (unquote (splitAfterHashBang (to_url o))) = some (.obj o) ∧
    is_pointer_url (to_url o) = false := by
  have hascii := jdump_ascii _ hv
  have hsplit : splitAfterHashBang (to_url o) = pyQuote (jdump (.obj o)) := by
    rw [to_url]
    exact splitAfterHashBang_append NEURO_BASE _ (fun c hc => (NEURO_BASE_chars c hc).2)
  have hcontains : strContains (to_url o) (lit "#!") = true := by
    rw [to_url]
    exact strContains_hashbang NEURO_BASE _
  refine ⟨hcontains, ?_, ?_⟩
  · rw [hsplit, unquote_pyQuote _ hascii, json_loads_jdump _ hv]
  · rw [is_pointer_url, if_neg (by rw [hcontains]; exact fun hc => Bool.noConfusion hc),
      hsplit, unquote_pyQuote _ hascii, is_probably_json_jdump_obj]
    rfl

/-- Witness: the amended C8 at the concrete four-dimension state. -/
theorem c8_is_pointer_url_amended_witness :
    is_pointer_url (to_url c1state) = false :=
  (c8_is_pointer_url_amended c1state (by decide)).2.2

/-! ## Annotation items (`main.py`, `t_add_annotations`, lines 189-216)

An `Annotation` request (models.py 21-25): optional `id`, a type literal,
a center and an optional size.  Coordinates are carried as the `JValue`s
they serialize to; the float halving `size/2` of the ellipsoid branch is an
abstract parameter `half` (the claim is about the dict structure, not float
arithmetic). -/

structure Vec3J where
  x : JValue
  y : JValue
  z : JValue
deriving DecidableEq

structure AnnInput where
  id : Option Str
  type : Str
  center : Vec3J
  size : Option Vec3J
deriving DecidableEq

/-- `a.id or None` (an empty id string is falsy). -/
def idOrNone (i : Option Str) : JValue :=
  match i with
  | some s => if s.isEmpty then .null else .str s
  | Option.none => .null

/-- The `"point"` item dict (source lines 196-200). -/
def pointItem (a : AnnInput) : JObj :=
  .cons (lit "point") (.arr (JArr.ofList [a.center.x, a.center.y, a.center.z])) (
  .cons (lit "type") (.str (lit "point")) (
  .cons (lit "id") (idOrNone a.id) .nil))

/-- The `"box"` item dict (source lines 202-207): `point`/`size`, not
`pointA`/`pointB`. -/
def boxItem (a : AnnInput) (s : Vec3J) : JObj :=
  .cons (lit "type") (.str (lit "box")) (
  .cons (lit "point") (.arr (JArr.ofList [a.center.x, a.center.y, a.center.z])) (
  .cons (lit "size") (.arr (JArr.ofList [s.x, s.y, s.z])) (
  .cons (lit "id") (idOrNone a.id) .nil)))

/-- The `"ellipsoid"` item dict (source lines 209-214). -/
def ellipsoidItem (half : JValue → JValue) (a : AnnInput) (s : Vec3J) : JObj :=
  .cons (lit "type") (.str (lit "ellipsoid")) (
  .cons (lit "center") (.arr (JArr.ofList [a.center.x, a.center.y, a.center.z])) (
  .cons (lit "radii") (.arr (JArr.ofList [half s.x, half s.y, half s.z])) (
  .cons (lit "id") (idOrNone a.id) .nil)))

/-- The item-building loop of `t_add_annotations` (source lines 192-214):
an unmatched type appends nothing; a missing size in the box/ellipsoid
branch raises `AttributeError` (`none`). -/
def itemsOf (half : JValue → JValue) : List AnnInput → Option (List JValue)
  | [] => some []
  | a :: r =>
    if a.type = lit "point" then
      (itemsOf half r).map (fun l => JValue.obj (pointItem a) :: l)
    else if a.type = lit "box" then
      match a.size with
      | some s => (itemsOf half r).map (fun l => JValue.obj (boxItem a s) :: l)
      | Option.none => Option.none
    else if a.type = lit "ellipsoid" then
      match a.size with
      | some s => (itemsOf half r).map (fun l => JValue.obj (ellipsoidItem half a s) :: l)
      | Option.none => Option.none
    else itemsOf half r

def c5box : AnnInput :=
  { id := Option.none, type := lit "box",
    center := ⟨.num (lit "1"), .num (lit "2"), .num (lit "3")⟩,
    size := some ⟨.num (lit "4"), .num (lit "5"), .num (lit "6")⟩ }

/-- C5 counterexample: the box item built by the handler has no `pointA` or
`pointB` field (the claim's Box geometry); it carries `point` and `size`
instead. -/
theorem c5_counterexample :
    itemsOf (fun v => v) [c5box]
      = some [.obj (boxItem c5box ⟨.num (lit "4"), .num (lit "5"), .num (lit "6")⟩)] ∧
    (boxItem c5box ⟨.num (lit "4"), .num (lit "5"), .num (lit "6")⟩).hasKey
        (lit "pointA") = false ∧
    (boxItem c5box ⟨.num (lit "4"), .num (lit "5"), .num (lit "6")⟩).hasKey
        (lit "pointB") = false ∧
    (boxItem c5box ⟨.num (lit "4"), .num (lit "5"), .num (lit "6")⟩).hasKey
        (lit "point") = true ∧
    (boxItem c5box ⟨.num (lit "4"), .num (lit "5"), .num (lit "6")⟩).hasKey
        (lit "size") = true :=
  ⟨by decide, by decide, by decide, by decide, by decide⟩

/-- C5 (amended): every item the handler creates is a dict carrying a
non-null `type` equal to `"point"`, `"box"` or `"ellipsoid"` together with
its variant geometry — `point` for Point, `point`/`size` (not
`pointA`/`pointB`) for Box, `center`/`radii` for Ellipsoid — and an `id`
key. -/
theorem c5_items_amended (half : JValue → JValue) (l : List AnnInput)
    (out : List JValue) (h : itemsOf half l = some out) :
    ∀ it ∈ out, ∃ o : JObj, it = .obj o ∧
      ((o.get? (lit "type") = some (.str (lit "point")) ∧
          o.hasKey (lit "point") = true) ∨
       (o.get? (lit "type") = some (.str (lit "box")) ∧
          o.hasKey (lit "point") = true ∧ o.hasKey (lit "size") = true) ∨
       (o.get? (lit "type") = some (.str (lit "ellipsoid")) ∧
          o.hasKey (lit "center") = true ∧ o.hasKey (lit "radii") = true)) ∧
      o.hasKey (lit "id") = true := by
  induction l generalizing out with
  | nil =>
    rw [itemsOf] at h
    obtain rfl : ([] : List JValue) = out := Option.some.inj h
    intro it hit
    exact absurd hit (List.not_mem_nil _)
  | cons a r ih =>
    rw [itemsOf] at h
    by_cases hp : a.type = lit "point"
    · rw [if_pos hp] at h
      obtain ⟨out2, h2, rfl⟩ := Option.map_eq_some'.mp h
      intro it hit
      rcases List.mem_cons.mp hit with rfl | hit2
      · exact ⟨pointItem a, rfl, Or.inl ⟨rfl, rfl⟩, rfl⟩
      · exact ih out2 h2 it hit2
    · rw [if_neg hp] at h
      by_cases hb : a.type = lit "box"
      · rw [if_pos hb] at h
        cases hs : a.size with
        | none => rw [hs] at h; exact Option.noConfusion h
        | some s =>
          rw [hs] at h
          obtain ⟨out2, h2, rfl⟩ := Option.map_eq_some'.mp h
          intro it hit
          rcases List.mem_cons.mp hit with rfl | hit2
          · exact ⟨boxItem a s, rfl, Or.inr (Or.inl ⟨rfl, rfl, rfl⟩), rfl⟩
          · exact ih out2 h2 it hit2
      · rw [if_neg hb] at h
        by_cases he : a.type = lit "ellipsoid"
        · rw [if_pos he] at h
          cases hs : a.size with
          | none => rw [hs] at h; exact Option.noConfusion h
          | some s =>
            rw [hs] at h
            obtain ⟨out2, h2, rfl⟩ := Option.map_eq_some'.mp h
            intro it hit
            rcases List.mem_cons.mp hit with rfl | hit2
            · exact ⟨ellipsoidItem half a s, rfl, Or.inr (Or.inr ⟨rfl, rfl, rfl⟩), rfl⟩
            · exact ih out2 h2 it hit2
        · rw [if_neg he] at h
          exact ih out h

def c5pt : AnnInput :=
  { id := some (lit "k"), type := lit "point",
    center := ⟨.num (lit "1"), .num (lit "2"), .num (lit "3")⟩,
    size := Option.none }

/-- Witness: the amended C5 applied to a concrete point annotation. -/
theorem c5_items_amended_witness : (pointItem c5pt).hasKey (lit "id") = true := by
  have h := c5_items_amended (fun v => v) [c5pt] [.obj (pointItem c5pt)] rfl
    (.obj (pointItem c5pt)) (List.mem_singleton.mpr rfl)
  obtain ⟨o, ho, _, hid⟩ := h
  obtain rfl := JValue.obj.inj ho
  exact hid

/-! ## The tool dispatcher (`main.py`, `_execute_tool_by_name`, lines 875-944)

Each `if name == "...":` branch instantiates a Pydantic model from the raw
args and calls the endpoint; validation and handler together are one
`handlers name args` returning `Except` (`.error (str e)` models any raised
exception).  The whole chain sits in one `try`, whose `except` converts to
`{"error": str(e)}`; falling off the chain yields the unknown-tool dict. -/

def TOOL_NAMES : List Str := [lit "ng_set_view",
  lit "ng_set_lut",
  lit "ng_add_layer",
  lit "ng_set_layer_visibility",
  lit "ng_annotations_add",
  lit "data_plot_histogram",
  lit "data_ingest_csv_rois",
  lit "state_save",
  lit "state_load",
  lit "ng_state_summary",
  lit "ng_state_link",
  lit "data_list_files",
  lit "data_info",
  lit "data_preview",
  lit "data_describe",
  lit "data_list_summaries",
  lit "data_query_polars",
  lit "data_plot",
  lit "data_ng_views_table",
  lit "data_ng_annotations_from_data",
  lit "data_list_plots"]

def errorResult (msg : Str) : JValue :=
  .obj (.cons (lit "error") (.str msg) .nil)

/-- The `try` body: `some` = a branch matched (and either returned or
raised), `none` = fell through. -/
def execRaw (handlers : Str → JObj → Except Str JValue)
    (name : Str) (args : JObj) : Option (Except Str JValue) :=
  if name = lit "ng_set_view" then some (handlers name args)
  else if name = lit "ng_set_lut" then some (handlers name args)
  else if name = lit "ng_add_layer" then some (handlers name args)
  else if name = lit "ng_set_layer_visibility" then some (handlers name args)
  else if name = lit "ng_annotations_add" then some (handlers name args)
  else if name = lit "data_plot_histogram" then some (handlers name args)
  else if name = lit "data_ingest_csv_rois" then some (handlers name args)
  else if name = lit "state_save" then some (handlers name args)
  else if name = lit "state_load" then some (handlers name args)
  else if name = lit "ng_state_summary" then some (handlers name args)
  else if name = lit "ng_state_link" then some (handlers name args)
  else if name = lit "data_list_files" then some (handlers name args)
  else if name = lit "data_info" then some (handlers name args)
  else if name = lit "data_preview" then some (handlers name args)
  else if name = lit "data_describe" then some (handlers name args)
  else if name = lit "data_list_summaries" then some (handlers name args)
  else if name = lit "data_query_polars" then some (handlers name args)
  else if name = lit "data_plot" then some (handlers name args)
  else if name = lit "data_ng_views_table" then some (handlers name args)
  else if name = lit "data_ng_annotations_from_data" then some (handlers name args)
  else if name = lit "data_list_plots" then some (handlers name args)
  else Option.none

/-- `_execute_tool_by_name`. -/
def execute_tool_by_name (handlers : Str → JObj → Except Str JValue)
    (name : Str) (args : JObj) : JValue :=
  match execRaw handlers name args with
  | some (.ok v) => v
  | some (.error e) => errorResult e
  | Option.none => errorResult (lit "Unknown tool " ++ name)

lemma execRaw_none (handlers : Str → JObj → Except Str JValue)
    (name : Str) (args : JObj) (h : TOOL_NAMES.contains name = false) :
    execRaw handlers name args = Option.none := by
  have hne : ∀ s, s ∈ TOOL_NAMES → ¬(name = s) := by
    intro s hs he
    subst he
    rw [List.contains_eq_any_beq] at h
    have := List.any_eq_false.mp h name hs
    simp at this
  rw [execRaw]
  rw [if_neg (hne (lit "ng_set_view") (by decide))]
  rw [if_neg (hne (lit "ng_set_lut") (by decide))]
  rw [if_neg (hne (lit "ng_add_layer") (by decide))]
  rw [if_neg (hne (lit "ng_set_layer_visibility") (by decide))]
  rw [if_neg (hne (lit "ng_annotations_add") (by decide))]
  rw [if_neg (hne (lit "data_plot_histogram") (by decide))]
  rw [if_neg (hne (lit "data_ingest_csv_rois") (by decide))]
  rw [if_neg (hne (lit "state_save") (by decide))]
  rw [if_neg (hne (lit "state_load") (by decide))]
  rw [if_neg (hne (lit "ng_state_summary") (by decide))]
  rw [if_neg (hne (lit "ng_state_link") (by decide))]
  rw [if_neg (hne (lit "data_list_files") (by decide))]
  rw [if_neg (hne (lit "data_info") (by decide))]
  rw [if_neg (hne (lit "data_preview") (by decide))]
  rw [if_neg (hne (lit "data_describe") (by decide))]
  rw [if_neg (hne (lit "data_list_summaries") (by decide))]
  rw [if_neg (hne (lit "data_query_polars") (by decide))]
  rw [if_neg (hne (lit "data_plot") (by decide))]
  rw [if_neg (hne (lit "data_ng_views_table") (by decide))]
  rw [if_neg (hne (lit "data_ng_annotations_from_data") (by decide))]
  rw [if_neg (hne (lit "data_list_plots") (by decide))]

/-- C9: the dispatcher never raises: a matched handler's result is returned
as-is, any exception a matched handler raises becomes the structured dict
`\x7b"error": str(e)\x7d`, and an unknown tool name yields
`\x7b"error": "Unknown tool <name>"\x7d` rather than an exception. -/
theorem c9_dispatcher (handlers : Str → JObj → Except Str JValue)
    (name : Str) (args : JObj) :
    (∀ v, execRaw handlers name args = some (Except.ok v) →
      execute_tool_by_name handlers name args = v) ∧
    (∀ e, execRaw handlers name args = some (Except.error e) →
      execute_tool_by_name handlers name args = errorResult e) ∧
    (TOOL_NAMES.contains name = false →
      execute_tool_by_name handlers name args
        = errorResult (lit "Unknown tool " ++ name)) := by
  refine ⟨?_, ?_, ?_⟩
  · intro v hv
    rw [execute_tool_by_name, hv]
  · intro e he
    rw [execute_tool_by_name, he]
  · intro hc
    rw [execute_tool_by_name, execRaw_none handlers name args hc]

/-- Witness: an always-raising handler family and the unknown name
`"nope"`. -/
theorem c9_dispatcher_witness :
    execute_tool_by_name (fun _ _ => Except.error (lit "boom")) (lit "nope") .nil
      = errorResult (lit "Unknown tool " ++ lit "nope") :=
  (c9_dispatcher (fun _ _ => Except.error (lit "boom")) (lit "nope") .nil).2.2
    (by decide)

/-! ## URL masking (`main.py`, `_mask_ng_urls`, lines 947-989) -/

/-- Match `https?://` at the head: the scheme and what follows. -/
def schemeSplit (s : Str) : Option (Str × Str) :=
  if (lit "https://").isPrefixOf s then some (lit "https://", s.drop 8)
  else if (lit "http://").isPrefixOf s then some (lit "http://", s.drop 7)
  else Option.none

def dropWs (s : Str) : Str := s.dropWhile (fun c => isSpace c)

/-- After the closing `\)`: `\s*\|`. -/
def tableLinkClose (r4 : Str) : Bool :=
  match dropWs r4 with
  | '|' :: _ => true
  | _ => false

/-- After the scheme: `[^\)]+\)\s*\|`. -/
def tableLinkBody (r3 : Str) : Bool :=
  if (r3.takeWhile (fun c => !(c == ')'))).isEmpty then false
  else
    match r3.dropWhile (fun c => !(c == ')')) with
    | ')' :: r4 => tableLinkClose r4
    | _ => false

/-- After `\|\s*`: `\[view\]\(https?://` and the rest. -/
def tableLinkTail (r2 : Str) : Bool :=
  if (lit "[view](").isPrefixOf r2 then
    match schemeSplit (r2.drop 7) with
    | some (_, r3) => tableLinkBody r3
    | Option.none => false
  else false

/-- Does `re`'s pattern `\|\s*\[view\]\(https?://[^\)]+\)\s*\|` match at
the head of `s`? -/
def tableLinkAt (s : Str) : Bool :=
  match s with
  | '|' :: r1 => tableLinkTail (dropWs r1)
  | _ => false

/-- `re.search` of the table pattern: a match at some position. -/
def hasTableLink : Str → Bool
  | [] => false
  | c :: t => tableLinkAt (c :: t) || hasTableLink t

/-- The character class `[^\s)]`. -/
def urlCharB (c : Char) : Bool := !(isSpace c) && !(c == ')')

/-- `re.findall(r"https?://[^\s)]+", text)`: leftmost non-overlapping
maximal matches. -/
def findUrlsGo : Nat → Str → List Str
  | _, [] => []
  | 0, _ => []
  | fuel + 1, c :: t =>
    match schemeSplit (c :: t) with
    | some (scheme, rest) =>
      if (rest.takeWhile urlCharB).isEmpty then findUrlsGo fuel t
      else (scheme ++ rest.takeWhile urlCharB) :: findUrlsGo fuel (rest.dropWhile urlCharB)
    | Option.none => findUrlsGo fuel t

def findUrls (s : Str) : List Str := findUrlsGo s.length s

/-- The schemeless-token fallback (source lines 970-975). -/
def tokenUrls (text : Str) : List Str :=
  if strContains text (lit "neuroglancer") && strContains text (lit "#!%7B") then
    (pySplitWs text).filter (fun tok =>
      strContains tok (lit "neuroglancer") && strContains tok (lit "#!%7B")
        && !(strContains tok (lit "http")))
  else []

/-- `urls` as collected by the source (lines 966-975). -/
def ngUrls (text : Str) : List Str :=
  (findUrls text).filter (fun u => strContains u (lit "neuroglancer")) ++ tokenUrls text

/-- `u in seen`. -/
def strIn (u : Str) : List Str → Bool
  | [] => false
  | s :: r => u == s || strIn u r

/-- The ordered-dedupe loop (source lines 978-983). -/
def dedupeGo (seen : List Str) : List Str → List Str
  | [] => []
  | u :: r => if strIn u seen then dedupeGo seen r else u :: dedupeGo (u :: seen) r

def dedupe (l : List Str) : List Str := dedupeGo [] l

def digitChar (n : Nat) : Char := Char.ofNat (48 + n)

def natLitGo : Nat → Nat → Str
  | 0, _ => []
  | fuel + 1, n =>
    if n < 10 then [digitChar n]
    else natLitGo fuel (n / 10) ++ [digitChar (n % 10)]

/-- Decimal representation of a `Nat` (for the label suffix). -/
def natLit (n : Nat) : Str := natLitGo (n + 1) n

/-- `label_map[u]` (source lines 984-987): `[base](u)` with the base label
carrying a 1-based suffix from the second distinct URL on. -/
def labelFor (idx : Nat) (u : Str) : Str :=
  (lit "[" ++ (if idx = 0 then lit "Updated Neuroglancer view"
    else lit "Updated Neuroglancer view (" ++ natLit (idx + 1) ++ lit ")") ++ lit "](")
  ++ (u ++ lit ")")

/-- The sequential `text.replace` loop over the label map (insertion order,
source line 988). -/
def applyLabels : Str → Nat → List Str → Str
  | text, _, [] => text
  | text, idx, u :: r => applyLabels (pyReplace text u (labelFor idx u)) (idx + 1) r

/-- `_mask_ng_urls`. -/
def mask_ng_urls (text : Str) : Str :=
  if hasTableLink text then text
  else if (ngUrls text).isEmpty then text
  else applyLabels text 0 (dedupe (ngUrls text))

lemma dropWhile_append_all {p : Char → Bool} : ∀ (l r : Str), (∀ c ∈ l, p c = true) →
    List.dropWhile p (l ++ r) = List.dropWhile p r := by
  intro l
  induction l with
  | nil => intro r _; rfl
  | cons c t ih =>
    intro r h
    rw [List.cons_append, List.dropWhile_cons, if_pos (h c (List.mem_cons_self _ _))]
    exact ih r (fun d hd => h d (List.mem_cons_of_mem _ hd))

lemma isPrefixOf_append_self (p s : Str) : p.isPrefixOf (p ++ s) = true :=
  List.isPrefixOf_iff_prefix.mpr (List.prefix_append p s)

lemma schemeSplit_https (Y : Str) :
    schemeSplit (lit "https://" ++ Y) = some (lit "https://", Y) := by
  rw [schemeSplit, if_pos (isPrefixOf_append_self (lit "https://") Y)]
  rfl

lemma tableLinkAt_true (ws1 body ws2 rest : Str)
    (hws1 : ∀ c ∈ ws1, isSpace c = true)
    (hws2 : ∀ c ∈ ws2, isSpace c = true)
    (hb1 : body ≠ [])
    (hb2 : ∀ c ∈ body, (c == ')') = false) :
    tableLinkAt ('|' :: (ws1 ++ (lit "[view](" ++ (lit "https://"
      ++ (body ++ (')' :: (ws2 ++ ('|' :: rest)))))))) = true := by
  rw [tableLinkAt]
  have hdr : dropWs (ws1 ++ (lit "[view](" ++ (lit "https://"
      ++ (body ++ (')' :: (ws2 ++ ('|' :: rest)))))))
      = lit "[view](" ++ (lit "https://"
        ++ (body ++ (')' :: (ws2 ++ ('|' :: rest))))) := by
    rw [dropWs, dropWhile_append_all _ _ hws1]
    rfl
  rw [hdr, tableLinkTail,
    if_pos (isPrefixOf_append_self (lit "[view](") _),
    show (lit "[view](" ++ (lit "https://"
      ++ (body ++ (')' :: (ws2 ++ ('|' :: rest)))))).drop 7
      = lit "https://" ++ (body ++ (')' :: (ws2 ++ ('|' :: rest)))) from rfl,
    schemeSplit_https]
  show tableLinkBody (body ++ (')' :: (ws2 ++ ('|' :: rest)))) = true
  have hb2' : ∀ c ∈ body, (fun c => !(c == ')')) c = true := by
    intro c hc
    show (!(c == ')')) = true
    rw [hb2 c hc]
    rfl
  have htw := takeWhile_append_all (p := fun c => !(c == ')')) body
    (')' :: (ws2 ++ ('|' :: rest))) hb2' (by rfl)
  rw [tableLinkBody, htw.1, htw.2]
  have hne : body.isEmpty = false := by
    cases body with
    | nil => exact absurd rfl hb1
    | cons c t => rfl
  rw [if_neg (by rw [hne]; exact Bool.false_ne_true)]
  show tableLinkClose (ws2 ++ ('|' :: rest)) = true
  have hdr2 : dropWs (ws2 ++ ('|' :: rest)) = '|' :: rest := by
    rw [dropWs, dropWhile_append_all _ _ hws2]
    rfl
  rw [tableLinkClose, hdr2]
  rfl

lemma hasTableLink_append : ∀ (pre s : Str), tableLinkAt s = true →
    hasTableLink (pre ++ s) = true := by
  intro pre
  induction pre with
  | nil =>
    intro s h
    cases s with
    | nil => exact absurd h (by decide)
    | cons c t =>
      rw [List.nil_append, hasTableLink, Bool.or_eq_true]
      exact Or.inl h
  | cons c t ih =>
    intro s h
    rw [List.cons_append, hasTableLink, Bool.or_eq_true]
    exact Or.inr (ih s h)

/-- C6 (amended): the only non-reentrancy the masker implements is the
table guard: any text containing a table-style `| [view](https?://…) |`
link is returned completely unchanged.  URLs inside ordinary markdown
links are NOT protected (see the counterexample). -/
theorem c6_mask_table_skip (pre ws1 body ws2 rest : Str)
    (hws1 : ∀ c ∈ ws1, isSpace c = true) (hws2 : ∀ c ∈ ws2, isSpace c = true)
    (hb1 : body ≠ []) (hb2 : ∀ c ∈ body, (c == ')') = false) :
    mask_ng_urls (pre ++ ('|' :: (ws1 ++ (lit "[view](" ++ (lit "https://"
      ++ (body ++ (')' :: (ws2 ++ ('|' :: rest)))))))))
      = pre ++ ('|' :: (ws1 ++ (lit "[view](" ++ (lit "https://"
        ++ (body ++ (')' :: (ws2 ++ ('|' :: rest)))))))) := by
  rw [mask_ng_urls, if_pos (hasTableLink_append pre _
    (tableLinkAt_true ws1 body ws2 rest hws1 hws2 hb1 hb2))]

/-- C6 counterexample: a URL already sitting inside markdown link syntax
`[x](…)` IS rewritten — the masker wraps it a second time. -/
theorem c6_counterexample :
    mask_ng_urls (lit "[x](https://neuroglancer)")
      = lit "[x]([Updated Neuroglancer view](https://neuroglancer))" := by decide

/-- Witness: the amended C6 on a concrete table row. -/
theorem c6_mask_table_skip_witness :
    mask_ng_urls (lit "a " ++ ('|' :: (lit " " ++ (lit "[view](" ++ (lit "https://"
      ++ (lit "x" ++ (')' :: (lit " " ++ ('|' :: lit " b")))))))))
      = lit "a " ++ ('|' :: (lit " " ++ (lit "[view](" ++ (lit "https://"
        ++ (lit "x" ++ (')' :: (lit " " ++ ('|' :: lit " b")))))))) :=
  c6_mask_table_skip (lit "a ") (lit " ") (lit "x") (lit " ") (lit " b")
    (by decide) (by decide) (by decide) (by decide)

lemma pyReplaceGo_skip (u new : Str) : ∀ (x rest : Str) (g fuel : Nat),
    fuel = x.length + g →
    (∀ k, k < x.length → u.isPrefixOf (x.drop k ++ rest) = false) →
    pyReplaceGo fuel (x ++ rest) u new = x ++ pyReplaceGo g rest u new := by
  intro x
  induction x with
  | nil =>
    intro rest g fuel hf _
    rw [List.nil_append, List.nil_append]
    rw [show fuel = g by rw [hf]; simp]
  | cons c x2 ih =>
    intro rest g fuel hf hk
    obtain ⟨f, rfl, hf2⟩ : ∃ f, fuel = f + 1 ∧ f = x2.length + g := by
      refine ⟨fuel - 1, ?_, ?_⟩ <;>
      · simp only [List.length_cons] at hf
        omega
    rw [List.cons_append, pyReplaceGo]
    have hp : u.isPrefixOf (c :: (x2 ++ rest)) = false := by
      have h0 := hk 0 (by simp)
      simpa using h0
    rw [if_neg (by
      intro hc
      rw [hp] at hc
      exact Bool.noConfusion hc.2)]
    rw [ih rest g f hf2 (fun k hk2 => by
      have := hk (k + 1) (by simp only [List.length_cons]; omega)
      simpa using this)]
    rfl

lemma pyReplaceGo_hit (u new y : Str) (hu : u ≠ []) (f : Nat) :
    pyReplaceGo (f + 1) (u ++ y) u new = new ++ pyReplaceGo f y u new := by
  cases u with
  | nil => exact absurd rfl hu
  | cons c t =>
    rw [List.cons_append, pyReplaceGo,
      if_pos ⟨hu, by rw [← List.cons_append]; exact isPrefixOf_append_self (c :: t) y⟩]
    have hd : (c :: (t ++ y)).drop (c :: t).length = y := by
      rw [show c :: (t ++ y) = (c :: t) ++ y from rfl, List.drop_left]
    rw [hd]

lemma pyReplaceGo_nil (u new : Str) : ∀ (g : Nat), pyReplaceGo g [] u new = []
  | 0 => rfl
  | _ + 1 => rfl

/-- `text.replace(u, new)` on a text with exactly one occurrence of `u`. -/
lemma pyReplace_one_occ (x y u new : Str) (hu : u ≠ [])
    (hx : ∀ k, k < x.length → u.isPrefixOf (x.drop k ++ (u ++ y)) = false)
    (hy : ∀ k, k < y.length → u.isPrefixOf (y.drop k) = false) :
    pyReplace (x ++ (u ++ y)) u new = x ++ (new ++ y) := by
  obtain ⟨c, t, rfl⟩ : ∃ c t, u = c :: t := by
    cases u with
    | nil => exact absurd rfl hu
    | cons c t => exact ⟨c, t, rfl⟩
  rw [pyReplace]
  rw [pyReplaceGo_skip (c :: t) new x ((c :: t) ++ y) ((c :: t) ++ y).length _
    (by simp) hx]
  rw [show ((c :: t) ++ y).length = (t ++ y).length + 1 from rfl]
  rw [pyReplaceGo_hit (c :: t) new y hu _]
  have hyy : pyReplaceGo (t ++ y).length y (c :: t) new
      = y ++ pyReplaceGo t.length [] (c :: t) new := by
    have := pyReplaceGo_skip (c :: t) new y [] t.length (t ++ y).length
      (by simp only [List.length_append]; omega)
      (fun k hk => by simpa using hy k hk)
    simpa using this
  rw [hyy, pyReplaceGo_nil, List.append_nil]

/-- `text.replace(u, new)` on a text with exactly two occurrences of `u`. -/
lemma pyReplace_two_occ (s0 m s3 u new : Str) (hu : u ≠ [])
    (h0 : ∀ k, k < s0.length →
      u.isPrefixOf (s0.drop k ++ (u ++ (m ++ (u ++ s3)))) = false)
    (hm : ∀ k, k < m.length → u.isPrefixOf (m.drop k ++ (u ++ s3)) = false)
    (h3 : ∀ k, k < s3.length → u.isPrefixOf (s3.drop k) = false) :
    pyReplace (s0 ++ (u ++ (m ++ (u ++ s3)))) u new
      = s0 ++ (new ++ (m ++ (new ++ s3))) := by
  obtain ⟨c, t, rfl⟩ : ∃ c t, u = c :: t := by
    cases u with
    | nil => exact absurd rfl hu
    | cons c t => exact ⟨c, t, rfl⟩
  rw [pyReplace]
  rw [pyReplaceGo_skip (c :: t) new s0 ((c :: t) ++ (m ++ ((c :: t) ++ s3)))
    ((c :: t) ++ (m ++ ((c :: t) ++ s3))).length _ (by simp) h0]
  rw [show ((c :: t) ++ (m ++ ((c :: t) ++ s3))).length
    = (t ++ (m ++ ((c :: t) ++ s3))).length + 1 from rfl]
  rw [pyReplaceGo_hit (c :: t) new (m ++ ((c :: t) ++ s3)) hu _]
  rw [pyReplaceGo_skip (c :: t) new m ((c :: t) ++ s3)
    (t ++ ((c :: t) ++ s3)).length _ (by
      simp only [List.length_append, List.length_cons]
      omega) hm]
  rw [show (t ++ ((c :: t) ++ s3)).length = (t ++ (t ++ s3)).length + 1 by
    simp only [List.length_append, List.length_cons]
    omega]
  rw [pyReplaceGo_hit (c :: t) new s3 hu _]
  have h33 : pyReplaceGo (t ++ (t ++ s3)).length s3 (c :: t) new
      = s3 ++ pyReplaceGo (t ++ t).length [] (c :: t) new := by
    have := pyReplaceGo_skip (c :: t) new s3 [] (t ++ t).length
      (t ++ (t ++ s3)).length (by simp only [List.length_append]; omega)
      (fun k hk => by simpa using h3 k hk)
    simpa using this
  rw [h33, pyReplaceGo_nil, List.append_nil]

/-- C7 counterexample: two distinct URLs where the first is a prefix of the
second.  The second URL never receives its `(2)` label: replacing the first
URL rewrites its occurrence inside the second, so the output carries the
unnumbered label twice (and a stray `X`). -/
theorem c7_counterexample :
    mask_ng_urls (lit "https://neuroglancer https://neuroglancerX")
      = lit "[Updated Neuroglancer view](https://neuroglancer) [Updated Neuroglancer view](https://neuroglancer)X" := by
  decide

/-- C7 (amended): first-seen-order numbering holds for well-separated URLs:
when the text decomposes as `s0 u1 s1 u2 s2 u1 s3` with `u1 ≠ u2`, the url
list is exactly those occurrences, the table guard does not fire, and no
further occurrence of `u1`/`u2` (also none straddling a boundary or inside
an inserted label) exists — the prefix-freeness hypotheses — then every
occurrence of the first distinct URL becomes
`[Updated Neuroglancer view](u1)` (the repeat reuses the label) and the
second distinct URL becomes `[Updated Neuroglancer view (2)](u2)`. -/
theorem c7_mask_numbering (s0 s1 s2 s3 u1 u2 : Str)
    (hu1 : u1 ≠ []) (hu2 : u2 ≠ []) (hne : u1 ≠ u2)
    (htable : hasTableLink (s0 ++ (u1 ++ (s1 ++ (u2 ++ (s2 ++ (u1 ++ s3)))))) = false)
    (hng : ngUrls (s0 ++ (u1 ++ (s1 ++ (u2 ++ (s2 ++ (u1 ++ s3)))))) = [u1, u2, u1])
    (H1a : ∀ k, k < s0.length → u1.isPrefixOf (s0.drop k
      ++ (u1 ++ ((s1 ++ (u2 ++ s2)) ++ (u1 ++ s3)))) = false)
    (H1b : ∀ k, k < (s1 ++ (u2 ++ s2)).length → u1.isPrefixOf
      ((s1 ++ (u2 ++ s2)).drop k ++ (u1 ++ s3)) = false)
    (H1c : ∀ k, k < s3.length → u1.isPrefixOf (s3.drop k) = false)
    (H2a : ∀ k, k < (s0 ++ (labelFor 0 u1 ++ s1)).length → u2.isPrefixOf
      ((s0 ++ (labelFor 0 u1 ++ s1)).drop k
        ++ (u2 ++ (s2 ++ (labelFor 0 u1 ++ s3)))) = false)
    (H2b : ∀ k, k < (s2 ++ (labelFor 0 u1 ++ s3)).length → u2.isPrefixOf
      ((s2 ++ (labelFor 0 u1 ++ s3)).drop k) = false) :
    mask_ng_urls (s0 ++ (u1 ++ (s1 ++ (u2 ++ (s2 ++ (u1 ++ s3))))))
      = s0 ++ (labelFor 0 u1 ++ (s1 ++ (labelFor 1 u2
          ++ (s2 ++ (labelFor 0 u1 ++ s3)))))
    ∧ labelFor 0 u1 = lit "[Updated Neuroglancer view](" ++ (u1 ++ lit ")")
    ∧ labelFor 1 u2 = lit "[Updated Neuroglancer view (2)](" ++ (u2 ++ lit ")") := by
  refine ⟨?_, rfl, rfl⟩
  rw [mask_ng_urls, if_neg (by rw [htable]; exact Bool.false_ne_true), hng,
    if_neg (fun hc => Bool.noConfusion hc)]
  have hd : dedupe [u1, u2, u1] = [u1, u2] := by
    rw [dedupe, dedupeGo, if_neg (fun hc => Bool.noConfusion hc), dedupeGo]
    have h21 : strIn u2 [u1] = false := by
      rw [strIn, strIn, beq_eq_false_iff_ne.mpr (fun h => hne h.symm)]
      rfl
    rw [if_neg (by rw [h21]; exact Bool.false_ne_true), dedupeGo]
    have h11 : strIn u1 [u2, u1] = true := by
      rw [strIn, strIn, beq_self_eq_true]
      simp
    rw [if_pos h11, dedupeGo]
  rw [hd, applyLabels, applyLabels, applyLabels]
  have e1 : s0 ++ (u1 ++ (s1 ++ (u2 ++ (s2 ++ (u1 ++ s3)))))
      = s0 ++ (u1 ++ ((s1 ++ (u2 ++ s2)) ++ (u1 ++ s3))) := by
    simp [List.append_assoc]
  rw [e1, pyReplace_two_occ s0 (s1 ++ (u2 ++ s2)) s3 u1 (labelFor 0 u1) hu1
    H1a H1b H1c]
  have e2 : s0 ++ (labelFor 0 u1 ++ ((s1 ++ (u2 ++ s2)) ++ (labelFor 0 u1 ++ s3)))
      = (s0 ++ (labelFor 0 u1 ++ s1)) ++ (u2 ++ (s2 ++ (labelFor 0 u1 ++ s3))) := by
    simp [List.append_assoc]
  rw [e2, pyReplace_one_occ (s0 ++ (labelFor 0 u1 ++ s1))
    (s2 ++ (labelFor 0 u1 ++ s3)) u2 (labelFor 1 u2) hu2 H2a H2b]
  simp [List.append_assoc]

/-- Witness: the amended C7 on a concrete text with `u1` twice and `u2`
once between the two occurrences. -/
theorem c7_mask_numbering_witness :
    mask_ng_urls (lit "" ++ (lit "https://neuroglancer/a" ++ (lit " "
        ++ (lit "https://neuroglancer/b" ++ (lit " "
        ++ (lit "https://neuroglancer/a" ++ lit ""))))))
      = lit "" ++ (labelFor 0 (lit "https://neuroglancer/a") ++ (lit " "
        ++ (labelFor 1 (lit "https://neuroglancer/b") ++ (lit " "
        ++ (labelFor 0 (lit "https://neuroglancer/a") ++ lit ""))))) :=
  (c7_mask_numbering (lit "") (lit " ") (lit " ") (lit "")
    (lit "https://neuroglancer/a") (lit "https://neuroglancer/b")
    (by decide) (by decide) (by decide) (by decide) (by decide)
    (by decide) (by decide) (by decide) (by decide) (by decide)).1

/-! ## The buffered chat orchestrator (`main.py`, `chat`, lines 465-785)

What C2 exercises: the iteration ceiling, the break conditions, the
post-loop extra model call and the `final_assistant` selection.  The model
(`run_chat`), the tool executor (validation + endpoint + the aggregation
branches, none of which touch the conversation) and
`_synthesize_tool_call_message` are parameters; messages are the JSON
dicts the source passes around. -/

def MAX_ITERS : Nat := 6

/-- `out.get("choices") or []`. -/
def choicesOf (out : JObj) : List JValue :=
  match out.get? (lit "choices") with
  | some (.arr a) => a.toList
  | _ => []

/-- `choices[0].get("message") or \x7b\x7d`. -/
def msgObjOf (ch : JValue) : JObj :=
  match ch with
  | .obj c =>
    match c.get? (lit "message") with
    | some (.obj m) => m
    | _ => .nil
  | _ => .nil

/-- `msg.get("tool_calls") or []`. -/
def toolCallsOf (m : JObj) : List JValue :=
  match m.get? (lit "tool_calls") with
  | some (.arr a) => a.toList
  | _ => []

def contentOf (m : JObj) : JValue := jget m (lit "content") JValue.null

def roleOf (m : JObj) : JValue := jget m (lit "role") JValue.null

/-- `content is None or (isinstance(content, str) and not content.strip())`. -/
def isEmptyContent : JValue → Bool
  | .null => true
  | .str s => (pyStrip s).isEmpty
  | _ => false

/-- `if isinstance(content, str): msg["content"] = _mask_ng_urls(content)`. -/
def maskIfStr (m : JObj) : JObj :=
  match m.get? (lit "content") with
  | some (.str s) => m.set (lit "content") (.str (mask_ng_urls s))
  | _ => m

/-- `_truncate_tool_output`: `json.dumps(obj)[:4000]`. -/
def truncateToolOutput (v : JValue) : Str := (jdump v).take 4000

/-- `(tc.get("function") or \x7b\x7d).get("name")`. -/
def fnOf (tc : JValue) : JValue :=
  match tc with
  | .obj o =>
    match o.get? (lit "function") with
    | some (.obj f) => jget f (lit "name") JValue.null
    | _ => JValue.null
  | _ => JValue.null

def idOf (tc : JValue) : JValue :=
  match tc with
  | .obj o => jget o (lit "id") JValue.null
  | _ => JValue.null

/-- The tool message appended per tool call (source lines 682-687). -/
def toolMsgFor (execTool : JValue → JValue) (tc : JValue) : JValue :=
  .obj (
  .cons (lit "role") (.str (lit "tool")) (
  .cons (lit "tool_call_id") (idOf tc) (
  .cons (lit "name") (fnOf tc) (
  .cons (lit "content") (.str (truncateToolOutput (execTool tc))) .nil))))

inductive StepRes where
  | halt (conv : List JValue)
  | next (conv : List JValue)

/-- One loop iteration after the model call: break on no choices, break
(masking) on no tool calls, otherwise append the assistant message (with
synthesized content when empty) and the tool messages. -/
def chatStep (execTool : JValue → JValue) (synth : List JValue → Str)
    (conv : List JValue) : List JValue → StepRes
  | [] => .halt conv
  | ch :: _ =>
    if (toolCallsOf (msgObjOf ch)).isEmpty then
      .halt (conv ++ [.obj (maskIfStr (msgObjOf ch))])
    else
      .next (conv ++ (JValue.obj (if isEmptyContent (contentOf (msgObjOf ch))
          then (msgObjOf ch).set (lit "content")
            (.str (synth (toolCallsOf (msgObjOf ch))))
          else msgObjOf ch)
        :: (toolCallsOf (msgObjOf ch)).map (toolMsgFor execTool)))

/-- `for iteration in range(max_iters)`: returns the conversation, the
number of model calls, and Python's `iteration` value after the loop. -/
def chatLoop (model : List JValue → JObj) (execTool : JValue → JValue)
    (synth : List JValue → Str) :
    Nat → Nat → List JValue → Nat → (List JValue × Nat × Nat)
  | 0, idx, conv, calls => (conv, calls, idx - 1)
  | remaining + 1, idx, conv, calls =>
    match chatStep execTool synth conv (choicesOf (model conv)) with
    | .halt conv2 => (conv2, calls + 1, idx)
    | .next conv2 => chatLoop model execTool synth remaining (idx + 1) conv2 (calls + 1)

/-- `conversation and conversation[-1].get("role") == "tool"`. -/
def endsToolMsg (conv : List JValue) : Bool :=
  match conv.getLast? with
  | some (.obj m) => roleOf m == JValue.str (lit "tool")
  | _ => false

/-- The post-loop extra model call (source lines 685-709): one more call
when the ceiling was reached on a pending tool result; the message is
appended with masked content but WITHOUT placeholder synthesis. -/
def chatAfter (model : List JValue → JObj) (conv : List JValue)
    (calls iter : Nat) : List JValue × Nat :=
  if iter = MAX_ITERS - 1 ∧ endsToolMsg conv = true then
    match choicesOf (model conv) with
    | [] => (conv, calls + 1)
    | ch :: _ => (conv ++ [.obj (maskIfStr (msgObjOf ch))], calls + 1)
  else (conv, calls)

/-- A message value, kept when it is an `"assistant"`-role dict. -/
def asAssistant : JValue → Option JValue
  | .obj o =>
    if roleOf o = JValue.str (lit "assistant") then some (.obj o) else Option.none
  | _ => Option.none

/-- `final_assistant`: the last `"assistant"`-role message, if any. -/
def lastAssistant : List JValue → Option JValue
  | [] => Option.none
  | m :: r => (lastAssistant r).orElse (fun _ => asAssistant m)

def noResponseMsg : JValue :=
  .obj (.cons (lit "role") (.str (lit "assistant"))
    (.cons (lit "content") (.str (lit "(no response)")) .nil))

/-- The chat handler: final payload message (`choices[0].message`) and the
total number of model calls. -/
def chat (model : List JValue → JObj) (execTool : JValue → JValue)
    (synth : List JValue → Str) (conv0 : List JValue) : JValue × Nat :=
  match chatLoop model execTool synth MAX_ITERS 0 conv0 0 with
  | (conv, calls, iter) =>
    ((lastAssistant (chatAfter model conv calls iter).1).getD noResponseMsg,
     (chatAfter model conv calls iter).2)

lemma getLast?_append_cons {α : Type} : ∀ (x : List α) (a : α) (l : List α),
    (x ++ (a :: l)).getLast? = (a :: l).getLast? := by
  intro x
  induction x with
  | nil => intro a l; rfl
  | cons c t ih =>
    intro a l
    rw [List.cons_append]
    cases t with
    | nil =>
      rw [List.nil_append, List.getLast?_cons_cons]
    | cons d t2 =>
      rw [List.cons_append, List.getLast?_cons_cons, ← List.cons_append]
      exact ih a l

lemma endsToolMsg_append_tools (e : JValue → JValue) : ∀ (tcs : List JValue)
    (pre : List JValue), tcs.isEmpty = false →
    endsToolMsg (pre ++ tcs.map (toolMsgFor e)) = true := by
  intro tcs
  induction tcs with
  | nil => intro pre h; exact Bool.noConfusion h
  | cons t1 ts ih =>
    intro pre _
    cases hts : ts with
    | nil =>
      rw [endsToolMsg, List.map_cons, List.map_nil, getLast?_append_cons pre _ []]
      rfl
    | cons t2 ts2 =>
      rw [List.map_cons,
        show pre ++ toolMsgFor e t1 :: List.map (toolMsgFor e) (t2 :: ts2)
          = (pre ++ [toolMsgFor e t1]) ++ List.map (toolMsgFor e) (t2 :: ts2) by simp,
        ← hts]
      exact ih (pre ++ [toolMsgFor e t1]) (by rw [hts]; rfl)

lemma endsToolMsg_append_cons_tools (e : JValue → JValue) (conv : List JValue)
    (a : JValue) (tcs : List JValue) (h : tcs.isEmpty = false) :
    endsToolMsg (conv ++ (a :: tcs.map (toolMsgFor e))) = true := by
  rw [show conv ++ (a :: tcs.map (toolMsgFor e))
    = (conv ++ [a]) ++ tcs.map (toolMsgFor e) by simp]
  exact endsToolMsg_append_tools e tcs (conv ++ [a]) h

lemma roleOf_maskIfStr (m : JObj) : roleOf (maskIfStr m) = roleOf m := by
  rw [maskIfStr]
  cases hg : m.get? (lit "content") with
  | none => rfl
  | some v =>
    cases v with
    | str s =>
      rw [roleOf, roleOf, jget, jget, JObj.get?_set_ne _ _ _ _ (by decide)]
    | null => rfl
    | bool b => rfl
    | num l => rfl
    | arr a => rfl
    | obj o => rfl

lemma lastAssistant_append (l : List JValue) (m : JObj)
    (h : roleOf m = JValue.str (lit "assistant")) :
    lastAssistant (l ++ [.obj m]) = some (.obj m) := by
  induction l with
  | nil =>
    rw [List.nil_append, lastAssistant]
    rw [show (lastAssistant []).orElse (fun _ => asAssistant (JValue.obj m))
      = asAssistant (JValue.obj m) from rfl]
    rw [asAssistant, if_pos h]
  | cons c t ih =>
    rw [List.cons_append, lastAssistant, ih]
    rfl

/-- An always-tool-calling model drives the loop through all its
iterations: one model call each, fuel never breaking, the conversation
ending on a tool message. -/
lemma chatLoop_all_tools (model : List JValue → JObj) (execTool : JValue → JValue)
    (synth : List JValue → Str)
    (h : ∀ conv, ∃ ch chs, choicesOf (model conv) = ch :: chs ∧
      (toolCallsOf (msgObjOf ch)).isEmpty = false) :
    ∀ (remaining idx : Nat) (conv : List JValue) (calls : Nat),
      ∃ conv2 : List JValue,
        chatLoop model execTool synth remaining idx conv calls
          = (conv2, calls + remaining, idx + remaining - 1) ∧
        (remaining = 0 → conv2 = conv) ∧
        (1 ≤ remaining → endsToolMsg conv2 = true) := by
  intro remaining
  induction remaining with
  | zero =>
    intro idx conv calls
    exact ⟨conv, rfl, fun _ => rfl, fun h1 => absurd h1 (by omega)⟩
  | succ rem ih =>
    intro idx conv calls
    obtain ⟨ch, chs, heq, htc⟩ := h conv
    have hstep : chatStep execTool synth conv (choicesOf (model conv))
        = .next (conv ++ (JValue.obj (if isEmptyContent (contentOf (msgObjOf ch))
            then (msgObjOf ch).set (lit "content")
              (.str (synth (toolCallsOf (msgObjOf ch))))
            else msgObjOf ch)
          :: (toolCallsOf (msgObjOf ch)).map (toolMsgFor execTool))) := by
      rw [heq, chatStep, if_neg (by rw [htc]; exact Bool.false_ne_true)]
    have hL : chatLoop model execTool synth (rem + 1) idx conv calls
        = chatLoop model execTool synth rem (idx + 1)
          (conv ++ (JValue.obj (if isEmptyContent (contentOf (msgObjOf ch))
              then (msgObjOf ch).set (lit "content")
                (.str (synth (toolCallsOf (msgObjOf ch))))
              else msgObjOf ch)
            :: (toolCallsOf (msgObjOf ch)).map (toolMsgFor execTool)))
          (calls + 1) := by
      rw [chatLoop, hstep]
    obtain ⟨conv2, ihEq, ih0, ih1⟩ := ih (idx + 1)
      (conv ++ (JValue.obj (if isEmptyContent (contentOf (msgObjOf ch))
          then (msgObjOf ch).set (lit "content")
            (.str (synth (toolCallsOf (msgObjOf ch))))
          else msgObjOf ch)
        :: (toolCallsOf (msgObjOf ch)).map (toolMsgFor execTool)))
      (calls + 1)
    refine ⟨conv2, ?_, fun h0 => absurd h0 (by omega), fun _ => ?_⟩
    · rw [hL, ihEq]
      have e1 : calls + 1 + rem = calls + (rem + 1) := by omega
      have e2 : idx + 1 + rem - 1 = idx + (rem + 1) - 1 := by omega
      rw [e1, e2]
    · cases hr : rem with
      | zero =>
        rw [ih0 (by rw [hr])]
        exact endsToolMsg_append_cons_tools execTool _ _ _ htc
      | succ r2 =>
        exact ih1 (by omega)

def c2msg : JObj :=
  .cons (lit "role") (.str (lit "assistant")) (
  .cons (lit "content") JValue.null (
  .cons (lit "tool_calls") (.arr (JArr.ofList [.obj (
    .cons (lit "id") (.str (lit "1")) (
    .cons (lit "function") (.obj (
      .cons (lit "name") (.str (lit "nope")) (
      .cons (lit "arguments") (.str (lit "\x7b\x7d")) .nil))) .nil))])) .nil))

/-- A mock model that always requests one tool call and returns no
content. -/
def c2model : List JValue → JObj := fun _ =>
  .cons (lit "choices") (.arr (JArr.ofList
    [.obj (.cons (lit "message") (.obj c2msg) .nil)])) .nil

/-- C2 counterexample: with a model stub that always requests a tool call,
the handler makes 7 model calls — `max_iters = 6` loop calls plus the
post-loop summarization call — exceeding the claimed ceiling of 6; and the
final assistant message of the returned payload has null content, not a
non-empty one (the post-loop path does not synthesize placeholder
content). -/
theorem c2_counterexample :
    (chat c2model (fun _ => JValue.null) (fun _ => lit "t") []).2 = 7 ∧
    (chat c2model (fun _ => JValue.null) (fun _ => lit "t") []).1 = .obj c2msg ∧
    contentOf c2msg = JValue.null :=
  ⟨by decide, by decide, by decide⟩

/-- C2 (amended): for every model stub that on each call returns a
(first-choice, assistant-role) message requesting at least one tool call,
the handler makes exactly `max_iters + 1 = 7` model calls — the 6 loop
iterations plus the forced final summarization call — and the payload's
final assistant message is that last call's message with its content
masked; its content is whatever the stub returned (possibly empty). -/
theorem c2_chat_amended (model : List JValue → JObj) (execTool : JValue → JValue)
    (synth : List JValue → Str) (conv0 : List JValue)
    (h : ∀ conv, ∃ ch chs, choicesOf (model conv) = ch :: chs ∧
      (toolCallsOf (msgObjOf ch)).isEmpty = false)
    (hrole : ∀ conv ch chs, choicesOf (model conv) = ch :: chs →
      roleOf (msgObjOf ch) = JValue.str (lit "assistant")) :
    (chat model execTool synth conv0).2 = MAX_ITERS + 1 ∧
    (∃ convEnd ch chs, choicesOf (model convEnd) = ch :: chs ∧
      (chat model execTool synth conv0).1 = .obj (maskIfStr (msgObjOf ch))) := by
  obtain ⟨conv2, hloop, _, hends⟩ :=
    chatLoop_all_tools model execTool synth h MAX_ITERS 0 conv0 0
  have hends6 := hends (by decide)
  obtain ⟨ch, chs, heq, _⟩ := h conv2
  have hch : chat model execTool synth conv0
      = ((lastAssistant (chatAfter model conv2 (0 + MAX_ITERS)
            (0 + MAX_ITERS - 1)).1).getD noResponseMsg,
         (chatAfter model conv2 (0 + MAX_ITERS) (0 + MAX_ITERS - 1)).2) := by
    rw [chat, hloop]
  have hca : chatAfter model conv2 (0 + MAX_ITERS) (0 + MAX_ITERS - 1)
      = (conv2 ++ [.obj (maskIfStr (msgObjOf ch))], (0 + MAX_ITERS) + 1) := by
    rw [chatAfter, if_pos ⟨by decide, hends6⟩, heq]
  constructor
  · rw [hch, hca]
    rfl
  · refine ⟨conv2, ch, chs, heq, ?_⟩
    rw [hch, hca]
    have hrole2 : roleOf (maskIfStr (msgObjOf ch)) = JValue.str (lit "assistant") := by
      rw [roleOf_maskIfStr]
      exact hrole conv2 ch chs heq
    show (lastAssistant (conv2 ++ [.obj (maskIfStr (msgObjOf ch))])).getD noResponseMsg
      = .obj (maskIfStr (msgObjOf ch))
    rw [lastAssistant_append _ _ hrole2]
    rfl

/-- Witness: the amended C2 at the concrete always-tool-calling stub. -/
theorem c2_chat_amended_witness :
    (chat c2model (fun _ => JValue.null) (fun _ => lit "t") []).2 = MAX_ITERS + 1 :=
  (c2_chat_amended c2model (fun _ => JValue.null) (fun _ => lit "t") []
    (fun conv => ⟨_, [], rfl, rfl⟩)
    (fun conv ch chs hch => by cases hch; rfl)).1

end NG
